import Mathlib

/-!
# Stork: a schema migration driver

A shallow embedding of `stork.go`, with concrete registries in the manner of
`test/stork_test.go`.

* A Go `int` is an integer between `minInt` and `maxInt` (64 bits); the one arithmetic
  expression of the code, `last+1` in `validateSequence`, wraps around (`wrapInt`).  Where a
  statement depends on it, that the versions of a registry are `int`s is a hypothesis
  (`IntVersions`).
* The database handle `*sql.DB` is a value of an arbitrary type `DB`; a callable supplied by the
  caller is a function from the database to a `Result`: the database it leaves behind, together
  with either its return value or the value it panicked with.  The four hooks, which the code
  compares with `nil`, are optional values; `Up`, `Down`, `GetVersion` and `SetVersion`, which
  the code calls without a `nil` test, are functions.
* Every call of a caller-supplied callable is recorded, in order, in an event trace.
-/

namespace Stork

/-- The value carried by a Go `panic` (the message of the `error`). -/
abbrev Error := String

/-- Outcome of a computation over a state: normal return, or a panic that unwinds to the caller. -/
inductive Result (σ α : Type) where
  | ok (value : α) (state : σ)
  | panicked (err : Error) (state : σ)

/-- The state a computation ended in, whether it returned or panicked. -/
def Result.state {σ α : Type} : Result σ α → σ
  | .ok _ s => s
  | .panicked _ s => s

/-- Whether the computation returned normally. -/
def Result.returned {σ α : Type} : Result σ α → Bool
  | .ok _ _ => true
  | .panicked _ _ => false

/-- Go: `type DatabaseFunction func(db *sql.DB)`. -/
abbrev DatabaseFunction (DB : Type) := DB → Result DB Unit

/-- Go: `type SetVersionFunction func(db *sql.DB, version int)`. -/
abbrev SetVersionFunction (DB : Type) := DB → Int → Result DB Unit

/-- Go: `type GetVersionFunc func(db *sql.DB) int`. -/
abbrev GetVersionFunc (DB : Type) := DB → Result DB Int

/-- Go: `type Migration struct`. -/
structure Migration (DB : Type) where
  SchemaVersion : Int
  Up : DatabaseFunction DB
  Down : DatabaseFunction DB

/-- Go: `type Migrator struct`.  A hook that is `nil` is `none`. -/
structure Migrator (DB : Type) where
  migrations : List (Migration DB)
  CheckSequence : Bool
  GetVersion : GetVersionFunc DB
  SetVersion : SetVersionFunction DB
  BeforeAll : Option (DatabaseFunction DB)
  AfterAll : Option (DatabaseFunction DB)
  BeforeEach : Option (DatabaseFunction DB)
  AfterEach : Option (DatabaseFunction DB)

/-- Go: `NoopDBFunc`. -/
def NoopDBFunc {DB : Type} : DatabaseFunction DB :=
  fun db => .ok () db

/-- The function stored in the slots of a zero value, where Go holds `nil`: it does nothing but
panic, as the call of a `nil` function value does.  Only `reverse` builds zero values, and it
overwrites every one of them. -/
def nilFunc {DB α : Type} : DB → Result DB α :=
  fun db => .panicked "runtime error: invalid memory address or nil pointer dereference" db

/-- The zero value of `Migration`, with which `make([]Migration, n)` fills a slice. -/
def Migration.zero {DB : Type} : Migration DB :=
  ⟨0, nilFunc, nilFunc⟩

/-- One call of a caller-supplied callable, as observed from outside. -/
inductive Event (DB : Type) where
  | getVersion
  | setVersion (version : Int)
  | beforeAll
  | afterAll
  | beforeEach
  | afterEach
  | up (migration : Migration DB)
  | down (migration : Migration DB)

/-- The state of a run: the database and the calls made so far, oldest first. -/
structure Run (DB : Type) where
  db : DB
  trace : List (Event DB)

/-- A Go statement sequence acting on a run; a panic ends it. -/
def Exec (DB α : Type) := Run DB → Result (Run DB) α

/-- Sequencing: the second part runs only when the first returned. -/
def Exec.bind {DB α β : Type} (x : Exec DB α) (f : α → Exec DB β) : Exec DB β :=
  fun s =>
    match x s with
    | .ok a s1 => f a s1
    | .panicked err s1 => .panicked err s1

instance {DB : Type} : Monad (Exec DB) where
  pure a := fun s => .ok a s
  bind := Exec.bind

/-- Go: `panic(err)`. -/
def raise {DB α : Type} (err : Error) : Exec DB α :=
  fun s => .panicked err s

/-- Calls a caller-supplied callable on the database and records the call. -/
def call {DB α : Type} (e : Event DB) (f : DB → Result DB α) : Exec DB α :=
  fun s =>
    match f s.db with
    | .ok a db => .ok a ⟨db, s.trace ++ [e]⟩
    | .panicked err db => .panicked err ⟨db, s.trace ++ [e]⟩

/-- Go: `if h != nil { h(db) }`. -/
def hook {DB : Type} (e : Event DB) : Option (DatabaseFunction DB) → Exec DB Unit
  | some f => call e f
  | none => pure ()

/-- Go: `fmt.Sprintf("Sequence break! Migration %d is followed by %d", last, current)`. -/
def sequenceBreak (last current : Int) : Error :=
  s!"Sequence break! Migration {last} is followed by {current}"

/-- The largest Go `int` (64 bits). -/
def maxInt : Int := 9223372036854775807

/-- The smallest Go `int` (64 bits). -/
def minInt : Int := -9223372036854775808

/-- The `int` that Go computes for an expression of mathematical value `x`: two's complement
wrap-around into the range from `minInt` to `maxInt`. -/
def wrapInt (x : Int) : Int :=
  (x - minInt) % 18446744073709551616 + minInt

/-- The loop of `validateSequence` from index `i` on, with the loop variable `last`; `last+1` is
an `int` expression. -/
def validateSequenceFrom {DB : Type} : Nat → Int → List (Migration DB) → Option Error
  | _, _, [] => none
  | i, last, migration :: rest =>
    if i = 0 then
      validateSequenceFrom (i + 1) migration.SchemaVersion rest
    else
      let current := migration.SchemaVersion
      if current ≠ wrapInt (last + 1) then
        some (sequenceBreak last current)
      else
        validateSequenceFrom (i + 1) current rest

/-- Go: `func (m *Migrator) validateSequence() error`; `none` is the `nil` error. -/
def validateSequence {DB : Type} (m : Migrator DB) : Option Error :=
  validateSequenceFrom 0 0 m.migrations

/-- The loop of `reverse`: `i` counts down from `i + 1` to `0` while `j` counts up. -/
def reverseLoop {DB : Type} (slice : List (Migration DB)) :
    Nat → Nat → List (Migration DB) → List (Migration DB)
  | 0, _, out => out
  | i + 1, j, out => reverseLoop slice i (j + 1) (out.set i (slice.getD j Migration.zero))

/-- Go: `func reverse(slice []Migration) []Migration`. -/
def reverse {DB : Type} (slice : List (Migration DB)) : List (Migration DB) :=
  reverseLoop slice slice.length 0 (List.replicate slice.length Migration.zero)

/-- The ascending loop of `MigrateTo` (`for _, migration := range m.migrations`). -/
def migrateUp {DB : Type} (m : Migrator DB) (current version : Int) :
    List (Migration DB) → Exec DB Unit
  | [] => pure ()
  | migration :: rest =>
    if migration.SchemaVersion ≤ current then
      migrateUp m current version rest
    else do
      if migration.SchemaVersion ≤ version then
        hook .beforeEach m.BeforeEach
        call (.up migration) migration.Up
        call (.setVersion migration.SchemaVersion) (fun db => m.SetVersion db migration.SchemaVersion)
        hook .afterEach m.AfterEach
      migrateUp m current version rest

/-- The descending loop of `MigrateTo` (`for _, migration := range reverse(m.migrations)`). -/
def migrateDown {DB : Type} (m : Migrator DB) (version : Int) :
    List (Migration DB) → Exec DB Unit
  | [] => pure ()
  | migration :: rest =>
    if migration.SchemaVersion < version then
      pure ()
    else do
      hook .beforeEach m.BeforeEach
      if migration.SchemaVersion ≥ version then
        call (.down migration) migration.Down
        call (.setVersion migration.SchemaVersion) (fun db => m.SetVersion db migration.SchemaVersion)
      hook .afterEach m.AfterEach
      migrateDown m version rest

/-- Go: `func (m *Migrator) MigrateTo(db *sql.DB, version int)`. -/
def MigrateTo {DB : Type} (m : Migrator DB) (version : Int) : Exec DB Unit := do
  if version ≤ 0 then
    raise "SchemaVersion must be >= 1"
  if m.CheckSequence then
    match validateSequence m with
    | some err => raise err
    | none => pure ()
  let current ← call .getVersion m.GetVersion
  hook .beforeAll m.BeforeAll
  if version > current then
    migrateUp m current version m.migrations
  else if version < current then
    migrateDown m version (reverse m.migrations)
  hook .afterAll m.AfterAll

/-- Runs `MigrateTo` on a database, starting from an empty trace. -/
def runMigrateTo {DB : Type} (m : Migrator DB) (db : DB) (version : Int) : Result (Run DB) Unit :=
  MigrateTo m version ⟨db, []⟩

/-- Go: `func NewMigrator(getVersion GetVersionFunc, setVersion SetVersionFunction) Migrator`;
the fields the literal leaves out hold their zero value `nil`. -/
def NewMigrator {DB : Type} (getVersion : GetVersionFunc DB) (setVersion : SetVersionFunction DB) :
    Migrator DB :=
  { GetVersion := getVersion
    SetVersion := setVersion
    CheckSequence := true
    migrations := []
    BeforeAll := none
    AfterAll := none
    BeforeEach := none
    AfterEach := none }

/-- The part of `MigrateTo` behind the two checks (from `current := m.GetVersion(db)` on). -/
def migrateFrom {DB : Type} (m : Migrator DB) (version : Int) : Exec DB Unit :=
  call .getVersion m.GetVersion >>= fun current =>
  hook .beforeAll m.BeforeAll >>= fun _ =>
  if version > current then
    migrateUp m current version m.migrations >>= fun _ => hook .afterAll m.AfterAll
  else if version < current then
    migrateDown m version (reverse m.migrations) >>= fun _ => hook .afterAll m.AfterAll
  else hook .afterAll m.AfterAll

/-! ## What a trace shows -/

/-- The descriptor whose `Up` a call is, if it is one. -/
def Event.upOf {DB : Type} : Event DB → Option (Migration DB)
  | .up d => some d
  | _ => none

/-- The descriptor whose `Down` a call is, if it is one. -/
def Event.downOf {DB : Type} : Event DB → Option (Migration DB)
  | .down d => some d
  | _ => none

/-- The version passed to `SetVersion`, if the call is one. -/
def Event.setOf {DB : Type} : Event DB → Option Int
  | .setVersion v => some v
  | _ => none

/-- The descriptors whose `Up` was called, in call order. -/
def ups {DB : Type} (t : List (Event DB)) : List (Migration DB) :=
  t.filterMap Event.upOf

/-- The descriptors whose `Down` was called, in call order. -/
def downs {DB : Type} (t : List (Event DB)) : List (Migration DB) :=
  t.filterMap Event.downOf

/-- The versions passed to `SetVersion`, in call order. -/
def setVersions {DB : Type} (t : List (Event DB)) : List Int :=
  t.filterMap Event.setOf

/-- A shape of events: the kind of call, without the descriptor. -/
inductive Kind where
  | getVersion | setVersion | beforeAll | afterAll | beforeEach | afterEach | up | down
  deriving DecidableEq, Repr

/-- The kind of a call. -/
def Event.kind {DB : Type} : Event DB → Kind
  | .getVersion => .getVersion
  | .setVersion _ => .setVersion
  | .beforeAll => .beforeAll
  | .afterAll => .afterAll
  | .beforeEach => .beforeEach
  | .afterEach => .afterEach
  | .up _ => .up
  | .down _ => .down

/-- How many calls of a kind a trace holds. -/
def count {DB : Type} (k : Kind) (t : List (Event DB)) : Nat :=
  (t.map Event.kind).count k

/-! ## A database for concrete runs -/

/-- A database that is nothing but a version store holding any integer.  It is not the SQLite
database of the test file, whose `user_version` field holds 32 bits. -/
structure VersionDB where
  version : Int
  deriving DecidableEq, Repr

/-- The version function that reads the store. -/
def readVersion : GetVersionFunc VersionDB :=
  fun db => .ok db.version db

/-- The version function that writes the store. -/
def writeVersion : SetVersionFunction VersionDB :=
  fun _ version => .ok () ⟨version⟩

/-- A descriptor of the given version whose steps leave the version store alone. -/
def testMigration (v : Int) : Migration VersionDB :=
  ⟨v, NoopDBFunc, NoopDBFunc⟩

/-- A migrator over the version store with the given registry, flag and per-step hooks. -/
def testMigrator (versions : List Int) (check : Bool)
    (beforeEach afterEach : Option (DatabaseFunction VersionDB)) : Migrator VersionDB :=
  ⟨versions.map testMigration, check, readVersion, writeVersion, none, none, beforeEach, afterEach⟩

/-- The `SchemaVersion`s of a list of descriptors. -/
def versionsOf {DB : Type} (l : List (Migration DB)) : List Int :=
  l.map Migration.SchemaVersion

/-- Invariant I1 of the registry: each descriptor's version is its predecessor's plus one. -/
def I1 {DB : Type} (l : List (Migration DB)) : Prop :=
  List.Chain' (fun a b => b.SchemaVersion = a.SchemaVersion + 1) l

/-- The value is a Go `int`. -/
def IsInt (v : Int) : Prop :=
  minInt ≤ v ∧ v ≤ maxInt

/-- The versions of the registry are Go `int`s, as every value of the field is. -/
def IntVersions {DB : Type} (l : List (Migration DB)) : Prop :=
  ∀ d ∈ l, IsInt d.SchemaVersion

/-- Nowhere in the registry is the largest `int` directly followed by the smallest: the only
adjacent pair on which `last+1` overflows onto the next version. -/
def WrapFree {DB : Type} (l : List (Migration DB)) : Prop :=
  List.Chain' (fun a b => ¬ (a.SchemaVersion = maxInt ∧ b.SchemaVersion = minInt)) l

/-! ## Expected traces -/

/-- The event a hook contributes: one call when it is configured, nothing when it is `nil`. -/
def hookEvents {DB : Type} (e : Event DB) : Option (DatabaseFunction DB) → List (Event DB)
  | some _ => [e]
  | none => []

/-- The block of events of one executed step; `dir` is `Event.up` or `Event.down`. -/
def stepEvents {DB : Type} (m : Migrator DB) (dir : Migration DB → Event DB)
    (d : Migration DB) : List (Event DB) :=
  hookEvents .beforeEach m.BeforeEach ++ [dir d, .setVersion d.SchemaVersion] ++
    hookEvents .afterEach m.AfterEach

/-- The descriptors of `l` with `current < SchemaVersion ≤ version`, in the order of `l`. -/
def upSteps {DB : Type} (current version : Int) (l : List (Migration DB)) : List (Migration DB) :=
  l.filter (fun d => decide (current < d.SchemaVersion) && decide (d.SchemaVersion ≤ version))

/-- The leading descriptors of `l` (a registry read backwards) with `version ≤ SchemaVersion`. -/
def downSteps {DB : Type} (version : Int) (l : List (Migration DB)) : List (Migration DB) :=
  l.takeWhile (fun d => decide (version ≤ d.SchemaVersion))

/-- The descriptors whose step `MigrateTo` executes once it has read `current`, in execution
order: by branch `version > current`, `version < current`, neither. -/
def steps {DB : Type} (m : Migrator DB) (current version : Int) : List (Migration DB) :=
  if version > current then upSteps current version m.migrations
  else if version < current then downSteps version m.migrations.reverse
  else []

/-- The callable of a descriptor that the chosen branch calls: `Up` when ascending, else `Down`. -/
def direction {DB : Type} (current version : Int) : Migration DB → Event DB :=
  if version > current then Event.up else Event.down

/-- The events of the executed steps. -/
def stepPlan {DB : Type} (m : Migrator DB) (current version : Int) : List (Event DB) :=
  (steps m current version).flatMap (stepEvents m (direction current version))

/-- The complete trace of a `MigrateTo` run that gets to read the version `current`. -/
def plan {DB : Type} (m : Migrator DB) (current version : Int) : List (Event DB) :=
  [.getVersion] ++ hookEvents .beforeAll m.BeforeAll ++ stepPlan m current version ++
    hookEvents .afterAll m.AfterAll

/-- The computation `x` adds to the trace a beginning of `full`, and all of it when it returns. -/
def Emits {DB α : Type} (x : Exec DB α) (full : List (Event DB)) : Prop :=
  ∀ s, ∃ t, (x s).state.trace = s.trace ++ t ∧ t <+: full ∧ ((x s).returned = true → t = full)

/-! ## Assumptions on the caller's callables -/

/-- The callables that `MigrateTo` may call besides the version functions: hooks and steps. -/
def IsStep {DB : Type} (m : Migrator DB) (f : DatabaseFunction DB) : Prop :=
  m.BeforeAll = some f ∨ m.AfterAll = some f ∨ m.BeforeEach = some f ∨ m.AfterEach = some f ∨
    ∃ d ∈ m.migrations, d.Up = f ∨ d.Down = f

/-- All callables succeed: none of them panics, on any database. -/
structure AllSucceed {DB : Type} (m : Migrator DB) : Prop where
  get : ∀ db, (m.GetVersion db).returned = true
  set : ∀ db v, (m.SetVersion db v).returned = true
  step : ∀ f, IsStep m f → ∀ db, (f db).returned = true

/-- The version functions are a faithful store of the value `stored db`: `GetVersion` reads it
without changing the database, a `SetVersion` that returns has written it, and no other callable
touches it. -/
structure FaithfulStore {DB : Type} (m : Migrator DB) (stored : DB → Int) : Prop where
  get : ∀ db, m.GetVersion db = .ok (stored db) db
  set : ∀ db v db1, m.SetVersion db v = .ok () db1 → stored db1 = v
  keep : ∀ f, IsStep m f → ∀ db, stored (f db).state = stored db

/-- The version of the last descriptor of a list of executed steps, `init` when there is none:
what a faithful store holds after the steps. -/
def lastVersion {DB : Type} (init : Int) (steps : List (Migration DB)) : Int :=
  steps.foldl (fun _ d => d.SchemaVersion) init

/-- Registration order is ascending (non-decreasing) version order. -/
def Ascending {DB : Type} (l : List (Migration DB)) : Prop :=
  l.Pairwise (fun a b => a.SchemaVersion ≤ b.SchemaVersion)

/-- Registration order is strictly ascending version order. -/
def StrictlyAscending {DB : Type} (l : List (Migration DB)) : Prop :=
  l.Pairwise (fun a b => a.SchemaVersion < b.SchemaVersion)

/-- Go: `func (m *Migrator) RegisterMigrations(migrations ...Migration)`; the receiver after the
call. -/
def RegisterMigrations {DB : Type} (m : Migrator DB) (migrations : List (Migration DB)) :
    Migrator DB :=
  migrations.foldl (fun m migration => { m with migrations := m.migrations ++ [migration] }) m

/-- The value of the run-time panic of an index expression whose index is out of range. -/
def indexOutOfRange (i : Int) : Error :=
  s!"runtime error: index out of range [{i}]"

/-- Go: `func (m *Migrator) MigrateToLatest(db *sql.DB)`.  The index expression
`m.migrations[len(m.migrations)-1]` panics when the index is not within the slice. -/
def MigrateToLatest {DB : Type} (m : Migrator DB) : Exec DB Unit :=
  let i : Int := (m.migrations.length : Int) - 1
  if i < 0 then
    raise (indexOutOfRange i)
  else
    match m.migrations[i.toNat]? with
    | none => raise (indexOutOfRange i)
    | some migration =>
      let latest := migration.SchemaVersion
      MigrateTo m latest

/-- Runs `MigrateToLatest` on a database, starting from an empty trace. -/
def runMigrateToLatest {DB : Type} (m : Migrator DB) (db : DB) : Result (Run DB) Unit :=
  MigrateToLatest m ⟨db, []⟩

/-- The ascending traversal in the words of the specification: in registration order, a
descriptor with `SchemaVersion ≤ current` is skipped, a later one with `SchemaVersion ≤ target`
is applied, and the traversal stops at the first descriptor with `SchemaVersion > target`. -/
def specAscending {DB : Type} (current target : Int) : List (Migration DB) → List (Migration DB)
  | [] => []
  | d :: rest =>
    if d.SchemaVersion ≤ current then specAscending current target rest
    else if d.SchemaVersion ≤ target then d :: specAscending current target rest
    else []

/-- A descriptor of the given version whose `Up` panics, leaving the database as it was. -/
def failingMigration (v : Int) : Migration VersionDB :=
  ⟨v, fun db => .panicked "up failed" db, NoopDBFunc⟩

/-- A migrator over the version store with the given descriptors and no hook. -/
def testMigratorOf (l : List (Migration VersionDB)) (check : Bool) : Migrator VersionDB :=
  ⟨l, check, readVersion, writeVersion, none, none, none, none⟩

/-! ## The sequence validator -/

theorem wrapInt_of_isInt (x : Int) (h : IsInt x) : wrapInt x = x := by
  unfold IsInt minInt maxInt at h
  unfold wrapInt minInt
  omega

/-- On `int`s, the test `current = last+1` of the code is the mathematical one, but for the
largest `int` followed by the smallest. -/
theorem wrapInt_succ_iff (a b : Int) (ha : IsInt a) (hb : IsInt b)
    (hw : ¬ (a = maxInt ∧ b = minInt)) : b = wrapInt (a + 1) ↔ b = a + 1 := by
  unfold IsInt minInt maxInt at ha hb
  unfold minInt maxInt at hw
  unfold wrapInt minInt
  omega

theorem wrapInt_maxInt_succ : wrapInt (maxInt + 1) = minInt := by
  unfold wrapInt minInt maxInt
  omega

theorem intVersions_tail {DB : Type} (a : Migration DB) (rest : List (Migration DB))
    (h : IntVersions (a :: rest)) : IntVersions rest :=
  fun d hd => h d (List.mem_cons_of_mem a hd)

theorem wrapFree_of_I1 {DB : Type} (l : List (Migration DB)) (h : I1 l) : WrapFree l := by
  refine List.Chain'.imp (fun a b hab => ?_) h
  intro hw
  rw [hw.1, hw.2] at hab
  unfold minInt maxInt at hab
  omega

theorem validateSequenceFrom_succ_cons {DB : Type} (i : Nat) (last : Int) (d : Migration DB)
    (rest : List (Migration DB)) :
    validateSequenceFrom (i + 1) last (d :: rest) =
      if d.SchemaVersion ≠ wrapInt (last + 1) then some (sequenceBreak last d.SchemaVersion)
      else validateSequenceFrom (i + 1 + 1) d.SchemaVersion rest := by
  simp [validateSequenceFrom]

theorem validateSequence_cons {DB : Type} (m : Migrator DB) (d : Migration DB)
    (rest : List (Migration DB)) (h : m.migrations = d :: rest) :
    validateSequence m = validateSequenceFrom 1 d.SchemaVersion rest := by
  simp [validateSequence, h, validateSequenceFrom]

/-- The test of the code on an adjacent pair of a registry of `int`s without wrap-around. -/
theorem pair_test_iff {DB : Type} (a b : Migration DB) (rest : List (Migration DB))
    (hint : IntVersions (a :: b :: rest)) (hwrap : WrapFree (a :: b :: rest)) :
    b.SchemaVersion = wrapInt (a.SchemaVersion + 1) ↔ b.SchemaVersion = a.SchemaVersion + 1 :=
  wrapInt_succ_iff _ _ (hint a (List.mem_cons_self a _))
    (hint b (List.mem_cons_of_mem a (List.mem_cons_self b _))) (List.chain'_cons.mp hwrap).1

/-- After the first element, on `int`s without wrap-around, the loop accepts exactly the chains
that continue `a`. -/
theorem validateSequenceFrom_none_iff {DB : Type} (rest : List (Migration DB)) :
    ∀ (i : Nat) (a : Migration DB), IntVersions (a :: rest) → WrapFree (a :: rest) →
      (validateSequenceFrom (i + 1) a.SchemaVersion rest = none ↔ I1 (a :: rest)) := by
  induction rest with
  | nil => intro i a _ _; simp [validateSequenceFrom, I1]
  | cons b rest ih =>
    intro i a hint hwrap
    have htest := pair_test_iff a b rest hint hwrap
    rw [validateSequenceFrom_succ_cons]
    by_cases hb : b.SchemaVersion = a.SchemaVersion + 1
    · have := ih (i + 1) b (intVersions_tail a _ hint) (List.Chain'.tail hwrap)
      simp only [I1] at this ⊢
      rw [if_neg (not_not.mpr (htest.mpr hb)), this, List.chain'_cons]
      exact ⟨fun hc => ⟨hb, hc⟩, fun hc => hc.2⟩
    · have hb2 : b.SchemaVersion ≠ wrapInt (a.SchemaVersion + 1) := fun h => hb (htest.mp h)
      rw [if_pos hb2]
      simp [I1, List.chain'_cons, hb]

theorem validateSequence_none_iff {DB : Type} (m : Migrator DB)
    (hint : IntVersions m.migrations) (hwrap : WrapFree m.migrations) :
    validateSequence m = none ↔ I1 m.migrations := by
  cases h : m.migrations with
  | nil => simp [validateSequence, h, validateSequenceFrom, I1]
  | cons d rest =>
    rw [h] at hint hwrap
    rw [validateSequence_cons m d rest h]
    exact validateSequenceFrom_none_iff rest 0 d hint hwrap

/-- A registry of `int`s that satisfies I1 passes the validator. -/
theorem validateSequence_of_I1 {DB : Type} (m : Migrator DB)
    (hint : IntVersions m.migrations) (h : I1 m.migrations) : validateSequence m = none :=
  (validateSequence_none_iff m hint (wrapFree_of_I1 _ h)).mpr h

theorem bind_apply {DB α β : Type} (x : Exec DB α) (f : α → Exec DB β) (s : Run DB) :
    (x >>= f) s = match x s with
      | .ok a s1 => f a s1
      | .panicked err s1 => .panicked err s1 := rfl

theorem pure_apply {DB α : Type} (a : α) (s : Run DB) : (pure a : Exec DB α) s = .ok a s := rfl

theorem call_bind_of_ok {DB α β : Type} (e : Event DB) (f : DB → Result DB α) (k : α → Exec DB β)
    (s : Run DB) (a : α) (db1 : DB) (h : f s.db = .ok a db1) :
    (call e f >>= k) s = k a ⟨db1, s.trace ++ [e]⟩ := by
  simp [bind_apply, call, h]

theorem returned_iff {σ α : Type} (r : Result σ α) :
    r.returned = true ↔ ∃ a s, r = .ok a s := by
  cases r <;> simp [Result.returned]

theorem emits_pure {DB α : Type} (a : α) : Emits (pure a : Exec DB α) [] := by
  intro s
  exact ⟨[], by simp [pure_apply, Result.state], List.prefix_refl _, fun _ => rfl⟩

theorem emits_raise {DB α : Type} (err : Error) (full : List (Event DB)) :
    Emits (raise err : Exec DB α) full := by
  intro s
  exact ⟨[], by simp [raise, Result.state], List.nil_prefix, by simp [raise, Result.returned]⟩

theorem emits_call {DB α : Type} (e : Event DB) (f : DB → Result DB α) : Emits (call e f) [e] := by
  intro s
  refine ⟨[e], ?_, List.prefix_refl _, fun _ => rfl⟩
  unfold call
  cases f s.db <;> simp [Result.state]

theorem emits_hook {DB : Type} (e : Event DB) (h : Option (DatabaseFunction DB)) :
    Emits (hook e h) (hookEvents e h) := by
  cases h with
  | none => exact emits_pure ()
  | some f => exact emits_call e f

theorem emits_bind {DB α β : Type} {x : Exec DB α} {f : α → Exec DB β}
    {t1 t2 : List (Event DB)} (hx : Emits x t1) (hf : ∀ a, Emits (f a) t2) :
    Emits (x >>= f) (t1 ++ t2) := by
  intro s
  obtain ⟨u1, htr1, hpre1, hret1⟩ := hx s
  rw [bind_apply]
  cases hxs : x s with
  | ok a s1 =>
    rw [hxs] at htr1 hret1
    simp only [Result.state, Result.returned, forall_const] at htr1 hret1
    obtain ⟨u2, htr2, hpre2, hret2⟩ := hf a s1
    refine ⟨t1 ++ u2, ?_, ?_, ?_⟩
    · simp [htr2, htr1, hret1]
    · exact (List.prefix_append_right_inj t1).mpr hpre2
    · intro hr
      rw [hret2 hr]
  | panicked err s1 =>
    rw [hxs] at htr1
    refine ⟨u1, by simpa [Result.state] using htr1, ?_, by simp [Result.returned]⟩
    exact hpre1.trans (List.prefix_append t1 t2)

/-! ## Unfolding the code -/

theorem migrateUp_cons {DB : Type} (m : Migrator DB) (c v : Int) (d : Migration DB)
    (rest : List (Migration DB)) :
    migrateUp m c v (d :: rest) =
      if d.SchemaVersion ≤ c then migrateUp m c v rest
      else if d.SchemaVersion ≤ v then
        hook .beforeEach m.BeforeEach >>= fun _ =>
        call (.up d) d.Up >>= fun _ =>
        call (.setVersion d.SchemaVersion) (fun db => m.SetVersion db d.SchemaVersion) >>= fun _ =>
        hook .afterEach m.AfterEach >>= fun _ =>
        migrateUp m c v rest
      else migrateUp m c v rest := rfl

theorem migrateDown_cons {DB : Type} (m : Migrator DB) (v : Int) (d : Migration DB)
    (rest : List (Migration DB)) :
    migrateDown m v (d :: rest) =
      if d.SchemaVersion < v then pure ()
      else
        hook .beforeEach m.BeforeEach >>= fun _ =>
        if d.SchemaVersion ≥ v then
          call (.down d) d.Down >>= fun _ =>
          call (.setVersion d.SchemaVersion) (fun db => m.SetVersion db d.SchemaVersion) >>= fun _ =>
          hook .afterEach m.AfterEach >>= fun _ =>
          migrateDown m v rest
        else
          hook .afterEach m.AfterEach >>= fun _ =>
          migrateDown m v rest := rfl

theorem MigrateTo_eq {DB : Type} (m : Migrator DB) (v : Int) :
    MigrateTo m v =
      if v ≤ 0 then raise "SchemaVersion must be >= 1"
      else if m.CheckSequence = true then
        match validateSequence m with
        | some err => raise err
        | none => migrateFrom m v
      else migrateFrom m v := rfl

theorem runMigrateTo_invalid {DB : Type} (m : Migrator DB) (db : DB) (v : Int) (hv : v ≤ 0) :
    runMigrateTo m db v = .panicked "SchemaVersion must be >= 1" ⟨db, []⟩ := by
  simp [runMigrateTo, MigrateTo_eq, hv, raise]

theorem runMigrateTo_break {DB : Type} (m : Migrator DB) (db : DB) (v : Int) (err : Error)
    (hv : 0 < v) (hc : m.CheckSequence = true) (he : validateSequence m = some err) :
    runMigrateTo m db v = .panicked err ⟨db, []⟩ := by
  simp [runMigrateTo, MigrateTo_eq, not_le.mpr hv, hc, he, raise]

theorem runMigrateTo_pass {DB : Type} (m : Migrator DB) (db : DB) (v : Int)
    (hv : 0 < v) (hc : m.CheckSequence = true → validateSequence m = none) :
    runMigrateTo m db v = migrateFrom m v ⟨db, []⟩ := by
  unfold runMigrateTo
  rw [MigrateTo_eq, if_neg (not_le.mpr hv)]
  by_cases h : m.CheckSequence = true
  · simp [h, hc h]
  · simp [h]

/-! ## `reverse` -/

theorem reverseLoop_eq {DB : Type} (slice : List (Migration DB)) :
    ∀ (i j : Nat), i + j = slice.length →
      reverseLoop slice i j (List.replicate i Migration.zero ++ (slice.take j).reverse) =
        slice.reverse := by
  intro i
  induction i with
  | zero =>
    intro j hj
    simp only [Nat.zero_add] at hj
    simp [reverseLoop, hj]
  | succ i ih =>
    intro j hj
    have hlt : j < slice.length := by omega
    have hset : (List.replicate (i + 1) Migration.zero ++ (slice.take j).reverse).set i
          (slice.getD j Migration.zero) =
        List.replicate i Migration.zero ++ (slice.take (j + 1)).reverse := by
      rw [List.replicate_succ', List.append_assoc, List.set_append_right _ _ (by simp)]
      have htake : slice.take (j + 1) = slice.take j ++ [slice[j]] := by
        rw [List.take_succ, List.getElem?_eq_getElem hlt]
        rfl
      rw [List.length_replicate, Nat.sub_self, htake, List.getD_eq_getElem?_getD,
        List.getElem?_eq_getElem hlt]
      simp only [List.set_cons_zero, List.reverse_append, List.reverse_cons, List.reverse_nil,
        List.nil_append, List.singleton_append, Option.getD_some, List.cons_append]
    simp only [reverseLoop]
    rw [hset]
    exact ih (j + 1) (by omega)

theorem reverse_eq {DB : Type} (slice : List (Migration DB)) : reverse slice = slice.reverse := by
  have := reverseLoop_eq slice slice.length 0 (by simp)
  simpa [reverse] using this

/-! ## The trace of the loops, whatever the callables do -/

theorem emits_step {DB β : Type} (m : Migrator DB) (dir : Migration DB → Event DB)
    (d : Migration DB) (f : DatabaseFunction DB) (k : Exec DB β) (rest : List (Event DB))
    (hk : Emits k rest) :
    Emits (hook .beforeEach m.BeforeEach >>= fun _ =>
        call (dir d) f >>= fun _ =>
        call (.setVersion d.SchemaVersion) (fun db => m.SetVersion db d.SchemaVersion) >>= fun _ =>
        hook .afterEach m.AfterEach >>= fun _ => k)
      (stepEvents m dir d ++ rest) := by
  have h := emits_bind (emits_hook .beforeEach m.BeforeEach) (fun _ =>
    emits_bind (emits_call (dir d) f) (fun _ =>
      emits_bind (emits_call (.setVersion d.SchemaVersion)
        (fun db => m.SetVersion db d.SchemaVersion)) (fun _ =>
          emits_bind (emits_hook .afterEach m.AfterEach) (fun _ => hk))))
  have hl : stepEvents m dir d ++ rest =
      hookEvents .beforeEach m.BeforeEach ++ ([dir d] ++ ([.setVersion d.SchemaVersion] ++
        (hookEvents .afterEach m.AfterEach ++ rest))) := by
    simp [stepEvents]
  rw [hl]
  exact h

theorem upSteps_cons_skip {DB : Type} (c v : Int) (d : Migration DB) (rest : List (Migration DB))
    (h : ¬ (c < d.SchemaVersion ∧ d.SchemaVersion ≤ v)) :
    upSteps c v (d :: rest) = upSteps c v rest := by
  unfold upSteps
  rw [List.filter_cons_of_neg]
  simpa using h

theorem upSteps_cons_apply {DB : Type} (c v : Int) (d : Migration DB) (rest : List (Migration DB))
    (h1 : c < d.SchemaVersion) (h2 : d.SchemaVersion ≤ v) :
    upSteps c v (d :: rest) = d :: upSteps c v rest := by
  unfold upSteps
  rw [List.filter_cons_of_pos]
  simp [h1, h2]

theorem downSteps_cons_stop {DB : Type} (v : Int) (d : Migration DB) (rest : List (Migration DB))
    (h : d.SchemaVersion < v) : downSteps v (d :: rest) = [] := by
  unfold downSteps
  rw [List.takeWhile_cons_of_neg]
  simpa using h

theorem downSteps_cons_apply {DB : Type} (v : Int) (d : Migration DB) (rest : List (Migration DB))
    (h : v ≤ d.SchemaVersion) : downSteps v (d :: rest) = d :: downSteps v rest := by
  unfold downSteps
  rw [List.takeWhile_cons_of_pos]
  simpa using h

theorem emits_migrateUp {DB : Type} (m : Migrator DB) (c v : Int) (l : List (Migration DB)) :
    Emits (migrateUp m c v l) ((upSteps c v l).flatMap (stepEvents m .up)) := by
  induction l with
  | nil => exact emits_pure ()
  | cons d rest ih =>
    rw [migrateUp_cons]
    by_cases h1 : d.SchemaVersion ≤ c
    · rw [if_pos h1, upSteps_cons_skip c v d rest (by omega)]
      exact ih
    · rw [if_neg h1]
      by_cases h2 : d.SchemaVersion ≤ v
      · rw [if_pos h2, upSteps_cons_apply c v d rest (by omega) h2, List.flatMap_cons]
        exact emits_step m .up d d.Up _ _ ih
      · rw [if_neg h2, upSteps_cons_skip c v d rest (by omega)]
        exact ih

theorem emits_migrateDown {DB : Type} (m : Migrator DB) (v : Int) (l : List (Migration DB)) :
    Emits (migrateDown m v l) ((downSteps v l).flatMap (stepEvents m .down)) := by
  induction l with
  | nil => exact emits_pure ()
  | cons d rest ih =>
    rw [migrateDown_cons]
    by_cases h1 : d.SchemaVersion < v
    · rw [if_pos h1, downSteps_cons_stop v d rest h1]
      exact emits_pure ()
    · have h2 : d.SchemaVersion ≥ v := not_lt.mp h1
      rw [if_neg h1, if_pos h2, downSteps_cons_apply v d rest h2, List.flatMap_cons]
      exact emits_step m .down d d.Down _ _ ih

theorem emits_afterRead {DB : Type} (m : Migrator DB) (v current : Int) :
    Emits (hook .beforeAll m.BeforeAll >>= fun _ =>
        if v > current then
          migrateUp m current v m.migrations >>= fun _ => hook .afterAll m.AfterAll
        else if v < current then
          migrateDown m v (reverse m.migrations) >>= fun _ => hook .afterAll m.AfterAll
        else hook .afterAll m.AfterAll)
      (hookEvents .beforeAll m.BeforeAll ++ (stepPlan m current v ++
        hookEvents .afterAll m.AfterAll)) := by
  refine emits_bind (emits_hook _ _) (fun _ => ?_)
  unfold stepPlan steps direction
  by_cases h1 : v > current
  · simp only [if_pos h1]
    exact emits_bind (emits_migrateUp m current v m.migrations) (fun _ => emits_hook _ _)
  · by_cases h2 : v < current
    · simp only [if_neg h1, if_pos h2]
      rw [reverse_eq]
      exact emits_bind (emits_migrateDown m v m.migrations.reverse) (fun _ => emits_hook _ _)
    · simp only [if_neg h1, if_neg h2, List.flatMap_nil, List.nil_append]
      exact emits_hook _ _

/-- Whatever the callables do, the trace of the part behind the checks is a beginning of the
plan for the version that was read, and the whole plan when the run returns. -/
theorem migrateFrom_trace {DB : Type} (m : Migrator DB) (db db1 : DB) (v current : Int)
    (hget : m.GetVersion db = .ok current db1) :
    (migrateFrom m v ⟨db, []⟩).state.trace <+: plan m current v ∧
      ((migrateFrom m v ⟨db, []⟩).returned = true →
        (migrateFrom m v ⟨db, []⟩).state.trace = plan m current v) := by
  unfold migrateFrom
  rw [call_bind_of_ok _ _ _ _ current db1 hget]
  obtain ⟨t, htr, hpre, hret⟩ := emits_afterRead m v current ⟨db1, [] ++ [.getVersion]⟩
  have hplan : plan m current v = [.getVersion] ++ (hookEvents .beforeAll m.BeforeAll ++
      (stepPlan m current v ++ hookEvents .afterAll m.AfterAll)) := by
    simp [plan]
  rw [hplan, htr]
  refine ⟨?_, fun hr => ?_⟩
  · simpa using hpre
  · rw [hret hr]
    simp

/-- The trace of `MigrateTo`, whatever the callables do and whether or not the checks pass. -/
theorem runMigrateTo_trace {DB : Type} (m : Migrator DB) (db db1 : DB) (v current : Int)
    (hget : m.GetVersion db = .ok current db1) :
    (runMigrateTo m db v).state.trace <+: plan m current v ∧
      ((runMigrateTo m db v).returned = true →
        (runMigrateTo m db v).state.trace = plan m current v) := by
  by_cases hv : v ≤ 0
  · rw [runMigrateTo_invalid m db v hv]
    exact ⟨List.nil_prefix, by simp [Result.returned]⟩
  · have hv1 : 0 < v := not_le.mp hv
    by_cases hc : m.CheckSequence = true → validateSequence m = none
    · rw [runMigrateTo_pass m db v hv1 hc]
      exact migrateFrom_trace m db db1 v current hget
    · have hcs : m.CheckSequence = true := by
        by_contra hn
        exact hc (fun h => absurd h hn)
      cases he : validateSequence m with
      | none => exact absurd (fun _ => he) hc
      | some err =>
        rw [runMigrateTo_break m db v err hv1 hcs he]
        exact ⟨List.nil_prefix, by simp [Result.returned]⟩

/-! ## Runs in which every callable succeeds -/

theorem call_step_ok {DB β : Type} (m : Migrator DB) (hs : AllSucceed m) (e : Event DB)
    (f : DatabaseFunction DB) (hf : IsStep m f) (k : Unit → Exec DB β) (s : Run DB) :
    ∃ s1, (call e f >>= k) s = k () s1 ∧
      ∀ stored, FaithfulStore m stored → stored s1.db = stored s.db := by
  obtain ⟨a, db1, hok⟩ := (returned_iff _).mp (hs.step f hf s.db)
  refine ⟨⟨db1, s.trace ++ [e]⟩, call_bind_of_ok e f k s a db1 hok, fun stored hst => ?_⟩
  have := hst.keep f hf s.db
  rw [hok] at this
  exact this

theorem call_set_ok {DB β : Type} (m : Migrator DB) (hs : AllSucceed m) (e : Event DB)
    (v : Int) (k : Unit → Exec DB β) (s : Run DB) :
    ∃ s1, (call e (fun db => m.SetVersion db v) >>= k) s = k () s1 ∧
      ∀ stored, FaithfulStore m stored → stored s1.db = v := by
  obtain ⟨a, db1, hok⟩ := (returned_iff _).mp (hs.set s.db v)
  refine ⟨⟨db1, s.trace ++ [e]⟩, call_bind_of_ok e _ k s a db1 hok, fun stored hst => ?_⟩
  exact hst.set s.db v db1 hok

theorem hook_ok {DB β : Type} (m : Migrator DB) (hs : AllSucceed m) (e : Event DB)
    (h : Option (DatabaseFunction DB)) (hh : ∀ f, h = some f → IsStep m f)
    (k : Unit → Exec DB β) (s : Run DB) :
    ∃ s1, (hook e h >>= k) s = k () s1 ∧
      ∀ stored, FaithfulStore m stored → stored s1.db = stored s.db := by
  cases h with
  | none => exact ⟨s, rfl, fun _ _ => rfl⟩
  | some f => exact call_step_ok m hs e f (hh f rfl) k s

theorem bind_pure_unit {DB : Type} (x : Exec DB Unit) (s : Run DB) :
    (x >>= fun _ => (pure () : Exec DB Unit)) s = x s := by
  rw [bind_apply]
  cases x s <;> rfl

theorem hook_returns {DB : Type} (m : Migrator DB) (hs : AllSucceed m) (e : Event DB)
    (h : Option (DatabaseFunction DB)) (hh : ∀ f, h = some f → IsStep m f) (s : Run DB) :
    ∃ s1, hook e h s = .ok () s1 ∧
      ∀ stored, FaithfulStore m stored → stored s1.db = stored s.db := by
  obtain ⟨s1, h1, hv⟩ := hook_ok m hs e h hh (fun _ => (pure () : Exec DB Unit)) s
  rw [bind_pure_unit] at h1
  exact ⟨s1, h1, hv⟩

theorem isStep_beforeAll {DB : Type} (m : Migrator DB) (f : DatabaseFunction DB)
    (h : m.BeforeAll = some f) : IsStep m f := Or.inl h

theorem isStep_afterAll {DB : Type} (m : Migrator DB) (f : DatabaseFunction DB)
    (h : m.AfterAll = some f) : IsStep m f := Or.inr (Or.inl h)

theorem isStep_beforeEach {DB : Type} (m : Migrator DB) (f : DatabaseFunction DB)
    (h : m.BeforeEach = some f) : IsStep m f := Or.inr (Or.inr (Or.inl h))

theorem isStep_afterEach {DB : Type} (m : Migrator DB) (f : DatabaseFunction DB)
    (h : m.AfterEach = some f) : IsStep m f := Or.inr (Or.inr (Or.inr (Or.inl h)))

theorem isStep_up {DB : Type} (m : Migrator DB) (d : Migration DB) (h : d ∈ m.migrations) :
    IsStep m d.Up := Or.inr (Or.inr (Or.inr (Or.inr ⟨d, h, Or.inl rfl⟩)))

theorem isStep_down {DB : Type} (m : Migrator DB) (d : Migration DB) (h : d ∈ m.migrations) :
    IsStep m d.Down := Or.inr (Or.inr (Or.inr (Or.inr ⟨d, h, Or.inr rfl⟩)))

/-- One executed step returns and leaves its own version in a faithful store. -/
theorem step_ok {DB β : Type} (m : Migrator DB) (hs : AllSucceed m) (e : Event DB)
    (f : DatabaseFunction DB) (hf : IsStep m f) (v : Int) (k : Unit → Exec DB β) (s : Run DB) :
    ∃ s1, (hook .beforeEach m.BeforeEach >>= fun _ =>
        call e f >>= fun _ =>
        call (.setVersion v) (fun db => m.SetVersion db v) >>= fun _ =>
        hook .afterEach m.AfterEach >>= k) s = k () s1 ∧
      ∀ stored, FaithfulStore m stored → stored s1.db = v := by
  obtain ⟨s1, h1, -⟩ := hook_ok m hs .beforeEach m.BeforeEach (isStep_beforeEach m)
    (fun _ => call e f >>= fun _ =>
      call (.setVersion v) (fun db => m.SetVersion db v) >>= fun _ =>
      hook .afterEach m.AfterEach >>= k) s
  obtain ⟨s2, h2, -⟩ := call_step_ok m hs e f hf
    (fun _ => call (.setVersion v) (fun db => m.SetVersion db v) >>= fun _ =>
      hook .afterEach m.AfterEach >>= k) s1
  obtain ⟨s3, h3, hv3⟩ := call_set_ok m hs (.setVersion v) v
    (fun _ => hook .afterEach m.AfterEach >>= k) s2
  obtain ⟨s4, h4, hv4⟩ := hook_ok m hs .afterEach m.AfterEach (isStep_afterEach m) k s3
  refine ⟨s4, ?_, fun stored hst => ?_⟩
  · rw [h1, h2, h3, h4]
  · rw [hv4 stored hst, hv3 stored hst]

theorem migrateUp_ok {DB : Type} (m : Migrator DB) (hs : AllSucceed m) (c v : Int)
    (l : List (Migration DB)) (hl : ∀ d ∈ l, d ∈ m.migrations) :
    ∀ s, ∃ s1, migrateUp m c v l s = .ok () s1 ∧
      ∀ stored, FaithfulStore m stored →
        stored s1.db = lastVersion (stored s.db) (upSteps c v l) := by
  induction l with
  | nil => intro s; exact ⟨s, rfl, fun _ _ => rfl⟩
  | cons d rest ih =>
    have hrest : ∀ x ∈ rest, x ∈ m.migrations := fun x hx => hl x (List.mem_cons_of_mem d hx)
    intro s
    rw [migrateUp_cons]
    by_cases h1 : d.SchemaVersion ≤ c
    · rw [if_pos h1, upSteps_cons_skip c v d rest (by omega)]
      exact ih hrest s
    · rw [if_neg h1]
      by_cases h2 : d.SchemaVersion ≤ v
      · rw [if_pos h2, upSteps_cons_apply c v d rest (by omega) h2]
        obtain ⟨s1, hs1, hv1⟩ := step_ok m hs (.up d) d.Up
          (isStep_up m d (hl d (List.mem_cons_self d rest))) d.SchemaVersion
          (fun _ => migrateUp m c v rest) s
        obtain ⟨s2, hs2, hv2⟩ := ih hrest s1
        refine ⟨s2, by rw [hs1, hs2], fun stored hst => ?_⟩
        rw [hv2 stored hst, hv1 stored hst]
        rfl
      · rw [if_neg h2, upSteps_cons_skip c v d rest (by omega)]
        exact ih hrest s

theorem migrateDown_ok {DB : Type} (m : Migrator DB) (hs : AllSucceed m) (v : Int)
    (l : List (Migration DB)) (hl : ∀ d ∈ l, d ∈ m.migrations) :
    ∀ s, ∃ s1, migrateDown m v l s = .ok () s1 ∧
      ∀ stored, FaithfulStore m stored →
        stored s1.db = lastVersion (stored s.db) (downSteps v l) := by
  induction l with
  | nil => intro s; exact ⟨s, rfl, fun _ _ => rfl⟩
  | cons d rest ih =>
    have hrest : ∀ x ∈ rest, x ∈ m.migrations := fun x hx => hl x (List.mem_cons_of_mem d hx)
    intro s
    rw [migrateDown_cons]
    by_cases h1 : d.SchemaVersion < v
    · rw [if_pos h1, downSteps_cons_stop v d rest h1]
      exact ⟨s, rfl, fun _ _ => rfl⟩
    · have h2 : d.SchemaVersion ≥ v := not_lt.mp h1
      rw [if_neg h1, if_pos h2, downSteps_cons_apply v d rest h2]
      obtain ⟨s1, hs1, hv1⟩ := step_ok m hs (.down d) d.Down
        (isStep_down m d (hl d (List.mem_cons_self d rest))) d.SchemaVersion
        (fun _ => migrateDown m v rest) s
      obtain ⟨s2, hs2, hv2⟩ := ih hrest s1
      refine ⟨s2, by rw [hs1, hs2], fun stored hst => ?_⟩
      rw [hv2 stored hst, hv1 stored hst]
      rfl

/-- When every callable succeeds, the part behind the checks returns, and a faithful store
ends with the version of the last executed step (or untouched when no step ran). -/
theorem migrateFrom_ok {DB : Type} (m : Migrator DB) (hs : AllSucceed m) (db db1 : DB)
    (v current : Int) (hget : m.GetVersion db = .ok current db1) :
    ∃ s1, migrateFrom m v ⟨db, []⟩ = .ok () s1 ∧
      ∀ stored, FaithfulStore m stored →
        stored s1.db = lastVersion (stored db1) (steps m current v) := by
  unfold migrateFrom
  rw [call_bind_of_ok _ _ _ _ current db1 hget]
  unfold steps
  by_cases h1 : v > current
  · obtain ⟨s1, e1, v1⟩ := hook_ok m hs .beforeAll m.BeforeAll (isStep_beforeAll m)
      (fun _ => if v > current then
          migrateUp m current v m.migrations >>= fun _ => hook .afterAll m.AfterAll
        else if v < current then
          migrateDown m v (reverse m.migrations) >>= fun _ => hook .afterAll m.AfterAll
        else hook .afterAll m.AfterAll) ⟨db1, [] ++ [.getVersion]⟩
    obtain ⟨s2, e2, v2⟩ := migrateUp_ok m hs current v m.migrations (fun _ h => h) s1
    obtain ⟨s3, e3, v3⟩ := hook_returns m hs .afterAll m.AfterAll (isStep_afterAll m) s2
    refine ⟨s3, ?_, fun stored hst => ?_⟩
    · rw [e1]
      simp only [if_pos h1]
      rw [bind_apply, e2]
      exact e3
    · rw [if_pos h1, v3 stored hst, v2 stored hst, v1 stored hst]
  · by_cases h2 : v < current
    · obtain ⟨s1, e1, v1⟩ := hook_ok m hs .beforeAll m.BeforeAll (isStep_beforeAll m)
        (fun _ => if v > current then
            migrateUp m current v m.migrations >>= fun _ => hook .afterAll m.AfterAll
          else if v < current then
            migrateDown m v (reverse m.migrations) >>= fun _ => hook .afterAll m.AfterAll
          else hook .afterAll m.AfterAll) ⟨db1, [] ++ [.getVersion]⟩
      obtain ⟨s2, e2, v2⟩ := migrateDown_ok m hs v m.migrations.reverse
        (fun d h => List.mem_reverse.mp h) s1
      obtain ⟨s3, e3, v3⟩ := hook_returns m hs .afterAll m.AfterAll (isStep_afterAll m) s2
      refine ⟨s3, ?_, fun stored hst => ?_⟩
      · rw [e1]
        simp only [if_neg h1, if_pos h2]
        rw [bind_apply, reverse_eq, e2]
        exact e3
      · rw [if_neg h1, if_pos h2, v3 stored hst, v2 stored hst, v1 stored hst]
    · obtain ⟨s1, e1, v1⟩ := hook_ok m hs .beforeAll m.BeforeAll (isStep_beforeAll m)
        (fun _ => if v > current then
            migrateUp m current v m.migrations >>= fun _ => hook .afterAll m.AfterAll
          else if v < current then
            migrateDown m v (reverse m.migrations) >>= fun _ => hook .afterAll m.AfterAll
          else hook .afterAll m.AfterAll) ⟨db1, [] ++ [.getVersion]⟩
      obtain ⟨s3, e3, v3⟩ := hook_returns m hs .afterAll m.AfterAll (isStep_afterAll m) s1
      refine ⟨s3, ?_, fun stored hst => ?_⟩
      · rw [e1]
        simp only [if_neg h1, if_neg h2]
        exact e3
      · rw [if_neg h1, if_neg h2, v3 stored hst, v1 stored hst]
        rfl

/-! ## Registries in ascending order -/

theorem strictlyAscending_of_I1 {DB : Type} (l : List (Migration DB)) (h : I1 l) :
    StrictlyAscending l := by
  induction l with
  | nil => exact List.Pairwise.nil
  | cons a rest ih =>
    have hrest : I1 rest := List.Chain'.tail h
    refine List.Pairwise.cons ?_ (ih hrest)
    cases rest with
    | nil => intro x hx; cases hx
    | cons b rest2 =>
      have hab : b.SchemaVersion = a.SchemaVersion + 1 := (List.chain'_cons.mp h).1
      intro x hx
      rcases List.mem_cons.mp hx with hxb | hx2
      · rw [hxb, hab]; omega
      · have := List.rel_of_pairwise_cons (ih hrest) hx2
        omega

theorem ascending_of_strictlyAscending {DB : Type} (l : List (Migration DB))
    (h : StrictlyAscending l) : Ascending l :=
  List.Pairwise.imp (fun hab => le_of_lt hab) h

theorem lastVersion_append_singleton {DB : Type} (init : Int) (l : List (Migration DB))
    (d : Migration DB) : lastVersion init (l ++ [d]) = d.SchemaVersion := by
  simp [lastVersion]

/-- A list of steps is empty, or ends with the descriptor whose version `lastVersion` gives. -/
theorem lastVersion_cases {DB : Type} (init : Int) (l : List (Migration DB)) :
    (l = [] ∧ lastVersion init l = init) ∨
      ∃ pre d, l = pre ++ [d] ∧ lastVersion init l = d.SchemaVersion := by
  rcases List.eq_nil_or_concat l with h | ⟨pre, d, h⟩
  · exact Or.inl ⟨h, by rw [h]; rfl⟩
  · rw [List.concat_eq_append] at h
    exact Or.inr ⟨pre, d, h, by rw [h]; exact lastVersion_append_singleton init pre d⟩

/-- Ascending to a registered target over a strictly ascending registry ends on the target. -/
theorem lastVersion_upSteps {DB : Type} (l : List (Migration DB)) (c t : Int)
    (hasc : StrictlyAscending l) (hspan : ∃ d ∈ l, d.SchemaVersion = t) (hct : c < t) :
    lastVersion c (upSteps c t l) = t := by
  obtain ⟨d, hd, hdt⟩ := hspan
  obtain ⟨l1, l2, hl⟩ := List.append_of_mem hd
  subst hl
  have hafter : ∀ x ∈ l2, d.SchemaVersion < x.SchemaVersion := by
    have h2 := (List.pairwise_append.mp hasc).2.1
    exact fun x hx => List.rel_of_pairwise_cons h2 hx
  have hnil : upSteps c t l2 = [] := by
    unfold upSteps
    rw [List.filter_eq_nil_iff]
    intro x hx
    have := hafter x hx
    simp only [Bool.and_eq_true, decide_eq_true_eq, not_and, not_le]
    intro _
    omega
  have hsplit : upSteps c t (l1 ++ d :: l2) = upSteps c t l1 ++ [d] := by
    have hcons := upSteps_cons_apply c t d l2 (by omega) (by omega)
    unfold upSteps at hcons hnil ⊢
    rw [List.filter_append, hcons, hnil]
  rw [hsplit, lastVersion_append_singleton, hdt]

/-- Descending to a registered target over a strictly ascending registry ends on the target. -/
theorem lastVersion_downSteps {DB : Type} (l : List (Migration DB)) (c t : Int)
    (hasc : StrictlyAscending l) (hspan : ∃ d ∈ l, d.SchemaVersion = t) :
    lastVersion c (downSteps t l.reverse) = t := by
  obtain ⟨d, hd, hdt⟩ := hspan
  obtain ⟨l1, l2, hl⟩ := List.append_of_mem hd
  subst hl
  have hp := List.pairwise_append.mp hasc
  have hafter : ∀ x ∈ l2, d.SchemaVersion < x.SchemaVersion :=
    fun x hx => List.rel_of_pairwise_cons hp.2.1 hx
  have hbefore : ∀ x ∈ l1, x.SchemaVersion < d.SchemaVersion :=
    fun x hx => hp.2.2 x hx d (List.mem_cons_self d l2)
  have hrev : (l1 ++ d :: l2).reverse = l2.reverse ++ d :: l1.reverse := by simp
  have htail : downSteps t l1.reverse = [] := by
    cases hr : l1.reverse with
    | nil => rfl
    | cons x rest =>
      have hx : x ∈ l1 := by
        have : x ∈ l1.reverse := by rw [hr]; exact List.mem_cons_self x rest
        exact List.mem_reverse.mp this
      exact downSteps_cons_stop t x rest (by have := hbefore x hx; omega)
  have hsplit : downSteps t (l2.reverse ++ d :: l1.reverse) = l2.reverse ++ [d] := by
    have hcons := downSteps_cons_apply t d l1.reverse (by omega)
    unfold downSteps at hcons htail ⊢
    rw [List.takeWhile_append_of_pos, hcons, htail]
    intro x hx
    have := hafter x (List.mem_reverse.mp hx)
    simp only [decide_eq_true_eq]
    omega
  rw [hrev, hsplit, lastVersion_append_singleton, hdt]

/-- What a faithful store holds after a run to a registered target over a strictly ascending
registry. -/
theorem lastVersion_steps {DB : Type} (m : Migrator DB) (c t : Int)
    (hasc : StrictlyAscending m.migrations) (hspan : ∃ d ∈ m.migrations, d.SchemaVersion = t) :
    lastVersion c (steps m c t) = t := by
  unfold steps
  by_cases h1 : t > c
  · rw [if_pos h1]
    exact lastVersion_upSteps m.migrations c t hasc hspan h1
  · by_cases h2 : t < c
    · rw [if_neg h1, if_pos h2]
      exact lastVersion_downSteps m.migrations c t hasc hspan
    · rw [if_neg h1, if_neg h2]
      show c = t
      omega

theorem mem_upSteps {DB : Type} (c v : Int) (l : List (Migration DB)) (d : Migration DB) :
    d ∈ upSteps c v l ↔ d ∈ l ∧ c < d.SchemaVersion ∧ d.SchemaVersion ≤ v := by
  simp [upSteps]

/-- Over an ascending registry, an ascending run leaves nothing to do for a second run. -/
theorem steps_after_steps {DB : Type} (m : Migrator DB) (c v : Int)
    (hasc : Ascending m.migrations) (hcv : c ≤ v) :
    steps m (lastVersion c (steps m c v)) v = [] := by
  by_cases h1 : v > c
  · have hsteps : steps m c v = upSteps c v m.migrations := by
      unfold steps
      rw [if_pos h1]
    rw [hsteps]
    rcases lastVersion_cases c (upSteps c v m.migrations) with ⟨hnil, hlast⟩ | ⟨pre, d, hF, hlast⟩
    · rw [hlast, hsteps, hnil]
    · rw [hlast]
      have hdF : d ∈ upSteps c v m.migrations := by rw [hF]; simp
      have hd := (mem_upSteps c v m.migrations d).mp hdF
      have hFasc : Ascending (pre ++ [d]) := by
        rw [← hF]
        exact List.Pairwise.sublist (List.filter_sublist _) hasc
      have hmax : ∀ x ∈ upSteps c v m.migrations, x.SchemaVersion ≤ d.SchemaVersion := by
        intro x hx
        rw [hF] at hx
        rcases List.mem_append.mp hx with hxp | hxd
        · exact (List.pairwise_append.mp hFasc).2.2 x hxp d (List.mem_singleton_self d)
        · rw [List.mem_singleton.mp hxd]
      unfold steps
      by_cases h3 : v > d.SchemaVersion
      · rw [if_pos h3]
        unfold upSteps
        rw [List.filter_eq_nil_iff]
        intro x hx
        simp only [Bool.and_eq_true, decide_eq_true_eq, not_and, not_le]
        intro hlt
        by_contra hle
        have hxF : x ∈ upSteps c v m.migrations :=
          (mem_upSteps c v m.migrations x).mpr ⟨hx, by omega, by omega⟩
        have := hmax x hxF
        omega
      · rw [if_neg h3, if_neg (by omega)]
  · have hcv2 : c = v := by omega
    subst hcv2
    simp [steps, lastVersion]

/-! ## Reading the plan -/

theorem ups_append {DB : Type} (a b : List (Event DB)) : ups (a ++ b) = ups a ++ ups b := by
  simp [ups]

theorem downs_append {DB : Type} (a b : List (Event DB)) : downs (a ++ b) = downs a ++ downs b := by
  simp [downs]

theorem setVersions_append {DB : Type} (a b : List (Event DB)) :
    setVersions (a ++ b) = setVersions a ++ setVersions b := by
  simp [setVersions]

theorem ups_hookEvents {DB : Type} (e : Event DB) (h : Option (DatabaseFunction DB))
    (he : e.upOf = none) : ups (hookEvents e h) = [] := by
  cases h <;> simp [hookEvents, ups, he]

theorem downs_hookEvents {DB : Type} (e : Event DB) (h : Option (DatabaseFunction DB))
    (he : e.downOf = none) : downs (hookEvents e h) = [] := by
  cases h <;> simp [hookEvents, downs, he]

theorem setVersions_hookEvents {DB : Type} (e : Event DB) (h : Option (DatabaseFunction DB))
    (he : e.setOf = none) : setVersions (hookEvents e h) = [] := by
  cases h <;> simp [hookEvents, setVersions, he]

theorem upOf_setVersion {DB : Type} (v : Int) : (Event.setVersion v : Event DB).upOf = none := rfl

theorem downOf_setVersion {DB : Type} (v : Int) :
    (Event.setVersion v : Event DB).downOf = none := rfl

theorem ups_stepEvents {DB : Type} (m : Migrator DB) (dir : Migration DB → Event DB)
    (d : Migration DB) : ups (stepEvents m dir d) = ((dir d).upOf).toList := by
  unfold stepEvents
  rw [ups_append, ups_append, ups_hookEvents .beforeEach _ rfl, ups_hookEvents .afterEach _ rfl]
  cases hd : (dir d).upOf <;>
    simp only [ups, List.filterMap_cons, hd, upOf_setVersion, List.filterMap_nil,
      List.nil_append, List.append_nil, Option.toList]

theorem downs_stepEvents {DB : Type} (m : Migrator DB) (dir : Migration DB → Event DB)
    (d : Migration DB) : downs (stepEvents m dir d) = ((dir d).downOf).toList := by
  unfold stepEvents
  rw [downs_append, downs_append, downs_hookEvents .beforeEach _ rfl,
    downs_hookEvents .afterEach _ rfl]
  cases hd : (dir d).downOf <;>
    simp only [downs, List.filterMap_cons, hd, downOf_setVersion, List.filterMap_nil,
      List.nil_append, List.append_nil, Option.toList]

theorem setVersions_stepEvents {DB : Type} (m : Migrator DB) (dir : Migration DB → Event DB)
    (hdir : ∀ d, (dir d).setOf = none) (d : Migration DB) :
    setVersions (stepEvents m dir d) = [d.SchemaVersion] := by
  unfold stepEvents
  rw [setVersions_append, setVersions_append, setVersions_hookEvents .beforeEach _ rfl,
    setVersions_hookEvents .afterEach _ rfl]
  have hset : (Event.setVersion d.SchemaVersion : Event DB).setOf = some d.SchemaVersion := rfl
  simp only [setVersions, List.filterMap_cons, hdir d, hset, List.filterMap_nil,
    List.nil_append, List.append_nil]

theorem ups_flatMap_up {DB : Type} (m : Migrator DB) (ds : List (Migration DB)) :
    ups (ds.flatMap (stepEvents m .up)) = ds := by
  induction ds with
  | nil => rfl
  | cons d rest ih =>
    rw [List.flatMap_cons, ups_append, ih, ups_stepEvents]
    rfl

theorem ups_flatMap_down {DB : Type} (m : Migrator DB) (ds : List (Migration DB)) :
    ups (ds.flatMap (stepEvents m .down)) = [] := by
  induction ds with
  | nil => rfl
  | cons d rest ih =>
    rw [List.flatMap_cons, ups_append, ih, ups_stepEvents]
    rfl

theorem downs_flatMap_up {DB : Type} (m : Migrator DB) (ds : List (Migration DB)) :
    downs (ds.flatMap (stepEvents m .up)) = [] := by
  induction ds with
  | nil => rfl
  | cons d rest ih =>
    rw [List.flatMap_cons, downs_append, ih, downs_stepEvents]
    rfl

theorem downs_flatMap_down {DB : Type} (m : Migrator DB) (ds : List (Migration DB)) :
    downs (ds.flatMap (stepEvents m .down)) = ds := by
  induction ds with
  | nil => rfl
  | cons d rest ih =>
    rw [List.flatMap_cons, downs_append, ih, downs_stepEvents]
    rfl

theorem setVersions_flatMap {DB : Type} (m : Migrator DB) (dir : Migration DB → Event DB)
    (hdir : ∀ d, (dir d).setOf = none) (ds : List (Migration DB)) :
    setVersions (ds.flatMap (stepEvents m dir)) = versionsOf ds := by
  induction ds with
  | nil => rfl
  | cons d rest ih =>
    rw [List.flatMap_cons, setVersions_append, ih, setVersions_stepEvents m dir hdir]
    rfl

theorem ups_plan {DB : Type} (m : Migrator DB) (c v : Int) :
    ups (plan m c v) = if v > c then upSteps c v m.migrations else [] := by
  unfold plan stepPlan steps direction
  rw [ups_append, ups_append, ups_append, ups_hookEvents .beforeAll _ rfl,
    ups_hookEvents .afterAll _ rfl]
  by_cases h1 : v > c
  · simp only [if_pos h1, ups_flatMap_up]
    simp only [ups, List.filterMap_cons, List.filterMap_nil, List.append_nil]
    rfl
  · simp only [if_neg h1, ups_flatMap_down]
    rfl

theorem downs_plan {DB : Type} (m : Migrator DB) (c v : Int) :
    downs (plan m c v) = if v > c then [] else steps m c v := by
  unfold plan stepPlan steps direction
  rw [downs_append, downs_append, downs_append, downs_hookEvents .beforeAll _ rfl,
    downs_hookEvents .afterAll _ rfl]
  by_cases h1 : v > c
  · simp only [if_pos h1, downs_flatMap_up]
    rfl
  · simp only [if_neg h1, downs_flatMap_down]
    simp only [downs, List.filterMap_cons, List.filterMap_nil, List.append_nil]
    rfl

theorem setVersions_plan {DB : Type} (m : Migrator DB) (c v : Int) :
    setVersions (plan m c v) = versionsOf (steps m c v) := by
  have hdir : ∀ d : Migration DB, ((direction c v) d).setOf = none := by
    intro d
    unfold direction
    split <;> rfl
  unfold plan stepPlan
  rw [setVersions_append, setVersions_append, setVersions_append,
    setVersions_hookEvents .beforeAll _ rfl, setVersions_hookEvents .afterAll _ rfl,
    setVersions_flatMap m _ hdir]
  simp only [setVersions, List.filterMap_cons, List.filterMap_nil, List.append_nil]
  rfl

/-! ## The test fixtures -/

theorem isStep_testMigrator (versions : List Int) (check : Bool)
    (be ae : Option (DatabaseFunction VersionDB))
    (hbe : ∀ f, be = some f → f = NoopDBFunc) (hae : ∀ f, ae = some f → f = NoopDBFunc)
    (f : DatabaseFunction VersionDB) (hf : IsStep (testMigrator versions check be ae) f) :
    f = NoopDBFunc := by
  rcases hf with h | h | h | h | ⟨d, hd, h⟩
  · cases h
  · cases h
  · exact hbe f h
  · exact hae f h
  · simp only [testMigrator, List.mem_map] at hd
    obtain ⟨v, -, rfl⟩ := hd
    rcases h with h | h <;> exact h.symm

theorem allSucceed_testMigrator (versions : List Int) (check : Bool)
    (be ae : Option (DatabaseFunction VersionDB))
    (hbe : ∀ f, be = some f → f = NoopDBFunc) (hae : ∀ f, ae = some f → f = NoopDBFunc) :
    AllSucceed (testMigrator versions check be ae) where
  get := fun _ => rfl
  set := fun _ _ => rfl
  step := fun f hf db => by
    rw [isStep_testMigrator versions check be ae hbe hae f hf]
    rfl

theorem faithful_testMigrator (versions : List Int) (check : Bool)
    (be ae : Option (DatabaseFunction VersionDB))
    (hbe : ∀ f, be = some f → f = NoopDBFunc) (hae : ∀ f, ae = some f → f = NoopDBFunc) :
    FaithfulStore (testMigrator versions check be ae) VersionDB.version where
  get := fun _ => rfl
  set := fun db v db1 h => by
    simp only [testMigrator, writeVersion, Result.ok.injEq, true_and] at h
    rw [← h]
  keep := fun f hf db => by
    rw [isStep_testMigrator versions check be ae hbe hae f hf]
    rfl

/-- What `MigrateTo` does when every callable succeeds and the checks pass: it returns, its trace
is the plan, and a faithful store ends on the version of the last step. -/
theorem runMigrateTo_ok {DB : Type} (m : Migrator DB) (hs : AllSucceed m) (db db1 : DB)
    (v current : Int) (hv : 0 < v) (hc : m.CheckSequence = true → validateSequence m = none)
    (hget : m.GetVersion db = .ok current db1) :
    ∃ s, runMigrateTo m db v = .ok () s ∧ s.trace = plan m current v ∧
      ∀ stored, FaithfulStore m stored →
        stored s.db = lastVersion (stored db1) (steps m current v) := by
  obtain ⟨s, hrun, hstored⟩ := migrateFrom_ok m hs db db1 v current hget
  have htr := (migrateFrom_trace m db db1 v current hget).2
  rw [hrun] at htr
  rw [runMigrateTo_pass m db v hv hc]
  exact ⟨s, hrun, htr rfl, hstored⟩

/-- A run that returns has passed both checks and has read a version. -/
theorem runMigrateTo_returned {DB : Type} (m : Migrator DB) (db : DB) (v : Int)
    (hret : (runMigrateTo m db v).returned = true) :
    ∃ current db1, m.GetVersion db = .ok current db1 := by
  by_cases hv : v ≤ 0
  · rw [runMigrateTo_invalid m db v hv] at hret
    exact absurd hret (by simp [Result.returned])
  · have hv1 : 0 < v := not_le.mp hv
    by_cases hc : m.CheckSequence = true → validateSequence m = none
    · rw [runMigrateTo_pass m db v hv1 hc] at hret
      cases hg : m.GetVersion db with
      | ok current db1 => exact ⟨current, db1, rfl⟩
      | panicked err db1 =>
        have : migrateFrom m v ⟨db, []⟩ = .panicked err ⟨db1, [] ++ [.getVersion]⟩ := by
          simp [migrateFrom, bind_apply, call, hg]
        rw [this] at hret
        exact absurd hret (by simp [Result.returned])
    · have hcs : m.CheckSequence = true := by
        by_contra hn
        exact hc (fun h => absurd h hn)
      cases he : validateSequence m with
      | none => exact absurd (fun _ => he) hc
      | some err =>
        rw [runMigrateTo_break m db v err hv1 hcs he] at hret
        exact absurd hret (by simp [Result.returned])

theorem count_append {DB : Type} (k : Kind) (a b : List (Event DB)) :
    count k (a ++ b) = count k a + count k b := by
  simp [count]

theorem count_flatMap_const {DB : Type} (k : Kind) (f : Migration DB → List (Event DB)) (n : Nat)
    (hf : ∀ d, count k (f d) = n) (ds : List (Migration DB)) :
    count k (ds.flatMap f) = ds.length * n := by
  induction ds with
  | nil => simp [count]
  | cons d rest ih =>
    rw [List.flatMap_cons, count_append, ih, hf d, List.length_cons]
    ring

theorem count_single {DB : Type} (k : Kind) (e : Event DB) :
    count k [e] = if e.kind = k then 1 else 0 := by
  simp only [count, List.map_cons, List.map_nil, List.count_cons, List.count_nil, beq_iff_eq,
    Nat.zero_add]

theorem count_hookEvents {DB : Type} (k : Kind) (e : Event DB)
    (h : Option (DatabaseFunction DB)) :
    count k (hookEvents e h) = if h.isSome = true ∧ e.kind = k then 1 else 0 := by
  cases h with
  | none => simp [hookEvents, count]
  | some f =>
    show count k [e] = _
    rw [count_single]
    simp

/-- The calls of each kind in the block of one executed step. -/
theorem count_stepEvents {DB : Type} (m : Migrator DB) (dir : Migration DB → Event DB)
    (d : Migration DB) (k : Kind) :
    count k (stepEvents m dir d) =
      (if m.BeforeEach.isSome = true ∧ Kind.beforeEach = k then 1 else 0) +
        ((if (dir d).kind = k then 1 else 0) + (if Kind.setVersion = k then 1 else 0)) +
        (if m.AfterEach.isSome = true ∧ Kind.afterEach = k then 1 else 0) := by
  unfold stepEvents
  rw [count_append, count_append, count_hookEvents, count_hookEvents]
  congr 2
  simp only [count, List.map_cons, List.map_nil, List.count_cons, List.count_nil, Event.kind,
    beq_iff_eq, Nat.zero_add]
  ring

/-- The calls of each kind in a whole plan. -/
theorem count_plan {DB : Type} (m : Migrator DB) (c v : Int) (k : Kind) (n : Nat)
    (hn : ∀ d, count k (stepEvents m (direction c v) d) = n) :
    count k (plan m c v) =
      (if Kind.getVersion = k then 1 else 0) +
        (if m.BeforeAll.isSome = true ∧ Kind.beforeAll = k then 1 else 0) +
        (steps m c v).length * n +
        (if m.AfterAll.isSome = true ∧ Kind.afterAll = k then 1 else 0) := by
  unfold plan stepPlan
  rw [count_append, count_append, count_append, count_hookEvents, count_hookEvents,
    count_flatMap_const k _ n hn]
  congr 3
  exact count_single k .getVersion

theorem direction_kind {DB : Type} (c v : Int) (d : Migration DB) :
    ((direction c v) d).kind = if v > c then Kind.up else Kind.down := by
  unfold direction
  split <;> rfl

/-- How often each kind of call occurs in a plan with `n` executed steps. -/
theorem count_plan_kinds {DB : Type} (m : Migrator DB) (c v : Int) :
    count .beforeEach (plan m c v) =
        (if m.BeforeEach.isSome = true then (steps m c v).length else 0) ∧
      count .afterEach (plan m c v) =
        (if m.AfterEach.isSome = true then (steps m c v).length else 0) ∧
      count .up (plan m c v) + count .down (plan m c v) = (steps m c v).length ∧
      count .setVersion (plan m c v) = (steps m c v).length ∧
      count .beforeAll (plan m c v) ≤ 1 ∧ count .afterAll (plan m c v) ≤ 1 := by
  refine ⟨?_, ?_, ?_, ?_, ?_, ?_⟩
  · rw [count_plan m c v .beforeEach (if m.BeforeEach.isSome = true then 1 else 0)]
    · by_cases h : m.BeforeEach.isSome = true <;> simp [h]
    · intro d
      rw [count_stepEvents, direction_kind]
      by_cases h : v > c <;> simp [h]
  · rw [count_plan m c v .afterEach (if m.AfterEach.isSome = true then 1 else 0)]
    · by_cases h : m.AfterEach.isSome = true <;> simp [h]
    · intro d
      rw [count_stepEvents, direction_kind]
      by_cases h : v > c <;> simp [h]
  · rw [count_plan m c v .up (if v > c then 1 else 0),
      count_plan m c v .down (if v > c then 0 else 1)]
    · by_cases h : v > c <;> simp [h]
    · intro d
      rw [count_stepEvents, direction_kind]
      by_cases h : v > c <;> simp [h]
    · intro d
      rw [count_stepEvents, direction_kind]
      by_cases h : v > c <;> simp [h]
  · rw [count_plan m c v .setVersion 1]
    · simp
    · intro d
      rw [count_stepEvents, direction_kind]
      by_cases h : v > c <;> simp [h]
  · rw [count_plan m c v .beforeAll 0]
    · by_cases h : m.BeforeAll.isSome = true <;> simp [h]
    · intro d
      rw [count_stepEvents, direction_kind]
      by_cases h : v > c <;> simp [h]
  · rw [count_plan m c v .afterAll 0]
    · by_cases h : m.AfterAll.isSome = true <;> simp [h]
    · intro d
      rw [count_stepEvents, direction_kind]
      by_cases h : v > c <;> simp [h]

theorem direction_cases {DB : Type} (c v : Int) :
    (direction c v : Migration DB → Event DB) = Event.up ∨
      (direction c v : Migration DB → Event DB) = Event.down := by
  unfold direction
  by_cases h : v > c
  · exact Or.inl (if_pos h)
  · exact Or.inr (if_neg h)

/-- A plan without steps calls no `Up`, no `Down` and no `SetVersion`. -/
theorem plan_of_no_steps {DB : Type} (m : Migrator DB) (c v : Int) (h : steps m c v = []) :
    ups (plan m c v) = [] ∧ downs (plan m c v) = [] ∧ setVersions (plan m c v) = [] := by
  refine ⟨?_, ?_, ?_⟩
  · rw [ups_plan]
    by_cases h1 : v > c
    · rw [if_pos h1]
      unfold steps at h
      rwa [if_pos h1] at h
    · rw [if_neg h1]
  · rw [downs_plan]
    by_cases h1 : v > c
    · rw [if_pos h1]
    · rw [if_neg h1, h]
  · rw [setVersions_plan, h]
    rfl

/-- Running `MigrateTo` again after a run that did not have to descend, over a registry in
ascending order or a registry of `int`s without wrap-around behind the sequence check: the
second run executes no step and a faithful store keeps its value. -/
theorem second_run {DB : Type} (m : Migrator DB) (db : DB) (v : Int) (stored : DB → Int)
    (hord : (m.CheckSequence = true ∧ IntVersions m.migrations ∧ WrapFree m.migrations) ∨
      Ascending m.migrations)
    (h1 : 1 ≤ v) (hge : stored db ≤ v) (hst : FaithfulStore m stored) (hs : AllSucceed m) :
    ups (runMigrateTo m (runMigrateTo m db v).state.db v).state.trace = [] ∧
    downs (runMigrateTo m (runMigrateTo m db v).state.db v).state.trace = [] ∧
    setVersions (runMigrateTo m (runMigrateTo m db v).state.db v).state.trace = [] ∧
    stored (runMigrateTo m (runMigrateTo m db v).state.db v).state.db =
      stored (runMigrateTo m db v).state.db := by
  by_cases hc : m.CheckSequence = true → validateSequence m = none
  · have hasc : Ascending m.migrations := by
      rcases hord with ⟨hcs, hint, hwrap⟩ | hasc
      · exact ascending_of_strictlyAscending _
          (strictlyAscending_of_I1 _ ((validateSequence_none_iff m hint hwrap).mp (hc hcs)))
      · exact hasc
    obtain ⟨s1, hrun1, -, hstored1⟩ :=
      runMigrateTo_ok m hs db db v (stored db) (by omega) hc (hst.get db)
    rw [hrun1]
    simp only [Result.state]
    obtain ⟨s2, hrun2, htr2, hstored2⟩ :=
      runMigrateTo_ok m hs s1.db s1.db v (stored s1.db) (by omega) hc (hst.get s1.db)
    rw [hrun2]
    simp only [Result.state]
    have hnone : steps m (stored s1.db) v = [] := by
      rw [hstored1 stored hst]
      exact steps_after_steps m (stored db) v hasc hge
    obtain ⟨hu, hd, hsv⟩ := plan_of_no_steps m (stored s1.db) v hnone
    rw [htr2]
    refine ⟨hu, hd, hsv, ?_⟩
    rw [hstored2 stored hst, hnone]
    rfl
  · have hcs : m.CheckSequence = true := by
      by_contra hn
      exact hc (fun h => absurd h hn)
    cases he : validateSequence m with
    | none => exact absurd (fun _ => he) hc
    | some err =>
      rw [runMigrateTo_break m db v err (by omega) hcs he]
      simp only [Result.state]
      rw [runMigrateTo_break m db v err (by omega) hcs he]
      exact ⟨rfl, rfl, rfl, rfl⟩

/-! ## Registration, construction, `MigrateToLatest` -/

theorem registerMigrations_eq {DB : Type} (ds : List (Migration DB)) :
    ∀ m : Migrator DB, RegisterMigrations m ds = { m with migrations := m.migrations ++ ds } := by
  induction ds with
  | nil => intro m; simp [RegisterMigrations]
  | cons d rest ih =>
    intro m
    have h := ih { m with migrations := m.migrations ++ [d] }
    simp only [RegisterMigrations, List.foldl_cons] at h ⊢
    rw [h]
    simp

theorem migrateToLatest_nil {DB : Type} (m : Migrator DB) (h : m.migrations = []) :
    MigrateToLatest m = raise (indexOutOfRange (-1)) := by
  simp [MigrateToLatest, h]

theorem migrateToLatest_concat {DB : Type} (m : Migrator DB) (pre : List (Migration DB))
    (d : Migration DB) (h : m.migrations = pre ++ [d]) :
    MigrateToLatest m = MigrateTo m d.SchemaVersion := by
  have hi : ((m.migrations.length : Int) - 1).toNat = pre.length := by
    rw [h]
    simp
  have hneg : ¬ ((m.migrations.length : Int) - 1 < 0) := by
    rw [h]
    simp
  have hget : m.migrations[pre.length]? = some d := by
    rw [h]
    simp
  simp only [MigrateToLatest, if_neg hneg, hi, hget]

theorem runMigrateToLatest_nonempty {DB : Type} (m : Migrator DB) (h : m.migrations ≠ [])
    (db : DB) :
    runMigrateToLatest m db = runMigrateTo m db (m.migrations.getLast h).SchemaVersion := by
  have hsplit : m.migrations = m.migrations.dropLast ++ [m.migrations.getLast h] :=
    (List.dropLast_append_getLast h).symm
  unfold runMigrateToLatest runMigrateTo
  rw [migrateToLatest_concat m _ _ hsplit]

theorem runMigrateToLatest_empty {DB : Type} (m : Migrator DB) (h : m.migrations = []) (db : DB) :
    runMigrateToLatest m db = .panicked "runtime error: index out of range [-1]" ⟨db, []⟩ := by
  unfold runMigrateToLatest
  rw [migrateToLatest_nil m h]
  rfl

/-- In a registry that satisfies I1 the descriptor at index `i` has the first version plus `i`. -/
theorem version_at_of_I1 {DB : Type} (l : List (Migration DB)) :
    I1 l → ∀ (i : Nat) (d d0 : Migration DB), l[i]? = some d → l[0]? = some d0 →
      d.SchemaVersion = d0.SchemaVersion + i := by
  induction l with
  | nil => intro _ i d d0 hd; simp at hd
  | cons a rest ih =>
    intro h i d d0 hd hd0
    simp only [List.getElem?_cons_zero, Option.some.injEq] at hd0
    subst hd0
    cases i with
    | zero =>
      simp only [List.getElem?_cons_zero, Option.some.injEq] at hd
      subst hd
      simp
    | succ j =>
      simp only [List.getElem?_cons_succ] at hd
      cases rest with
      | nil => simp at hd
      | cons b rest2 =>
        have hab : b.SchemaVersion = a.SchemaVersion + 1 := (List.chain'_cons.mp h).1
        have htail : I1 (b :: rest2) := List.Chain'.tail h
        have := ih htail j d b hd (List.getElem?_cons_zero)
        rw [this, hab]
        push_cast
        ring

theorem nodup_of_strictlyAscending {DB : Type} (l : List (Migration DB))
    (h : StrictlyAscending l) : (versionsOf l).Nodup := by
  unfold versionsOf List.Nodup
  rw [List.pairwise_map]
  exact List.Pairwise.imp (fun hab => ne_of_lt hab) h

theorem getElem?_reverse_eq {DB : Type} (s : List (Migration DB)) (i : Nat)
    (hi : i < s.length) : (reverse s)[i]? = s[s.length - 1 - i]? := by
  rw [reverse_eq, List.getElem?_reverse hi]

/-! ## The three branches -/

theorem plan_ascending {DB : Type} (m : Migrator DB) (c v : Int) (h : c < v) :
    plan m c v = [.getVersion] ++ hookEvents .beforeAll m.BeforeAll ++
      (m.migrations.filter
        (fun d => decide (c < d.SchemaVersion) && decide (d.SchemaVersion ≤ v))).flatMap
        (fun d => hookEvents .beforeEach m.BeforeEach ++ [.up d, .setVersion d.SchemaVersion] ++
          hookEvents .afterEach m.AfterEach) ++
      hookEvents .afterAll m.AfterAll := by
  simp only [plan, stepPlan, steps, direction, if_pos (show v > c from h)]
  rfl

theorem plan_descending {DB : Type} (m : Migrator DB) (c v : Int) (h : v < c) :
    plan m c v = [.getVersion] ++ hookEvents .beforeAll m.BeforeAll ++
      ((reverse m.migrations).takeWhile (fun d => decide (v ≤ d.SchemaVersion))).flatMap
        (fun d => hookEvents .beforeEach m.BeforeEach ++ [.down d, .setVersion d.SchemaVersion] ++
          hookEvents .afterEach m.AfterEach) ++
      hookEvents .afterAll m.AfterAll := by
  have h1 : ¬ v > c := by omega
  simp only [plan, stepPlan, steps, direction, if_neg h1, if_pos h, reverse_eq]
  rfl

theorem plan_equal {DB : Type} (m : Migrator DB) (v : Int) :
    plan m v v = [.getVersion] ++ hookEvents .beforeAll m.BeforeAll ++
      hookEvents .afterAll m.AfterAll := by
  have h1 : ¬ v > v := by omega
  have h2 : ¬ v < v := by omega
  simp only [plan, stepPlan, steps, if_neg h1, if_neg h2, List.flatMap_nil, List.append_nil]

theorem kind_of_mem_hookEvents {DB : Type} (e x : Event DB) (h : Option (DatabaseFunction DB))
    (hx : x ∈ hookEvents e h) : x.kind = e.kind := by
  cases h with
  | none => simp [hookEvents] at hx
  | some f =>
    simp only [hookEvents, List.mem_singleton] at hx
    rw [hx]

/-- The callables other than the version functions leave a faithful store alone, also when they
panic. -/
theorem hook_keeps {DB : Type} (m : Migrator DB) (stored : DB → Int)
    (hst : FaithfulStore m stored) (e : Event DB) (h : Option (DatabaseFunction DB))
    (hh : ∀ f, h = some f → IsStep m f) (s : Run DB) :
    stored (hook e h s).state.db = stored s.db := by
  cases h with
  | none => rfl
  | some f =>
    have hk := hst.keep f (hh f rfl) s.db
    simp only [hook, call]
    cases hf : f s.db with
    | ok a db1 => rw [hf] at hk; exact hk
    | panicked err db1 => rw [hf] at hk; exact hk

/-- Over a registry in ascending order the traversal of the code and the traversal that stops
at the first descriptor beyond the target apply the same descriptors. -/
theorem upSteps_eq_specAscending {DB : Type} (c t : Int) (l : List (Migration DB))
    (hasc : Ascending l) : upSteps c t l = specAscending c t l := by
  induction l with
  | nil => rfl
  | cons d rest ih =>
    have hrest : Ascending rest := (List.pairwise_cons.mp hasc).2
    have hle : ∀ x ∈ rest, d.SchemaVersion ≤ x.SchemaVersion := (List.pairwise_cons.mp hasc).1
    by_cases h1 : d.SchemaVersion ≤ c
    · rw [upSteps_cons_skip c t d rest (by omega)]
      simp only [specAscending, if_pos h1]
      exact ih hrest
    · by_cases h2 : d.SchemaVersion ≤ t
      · rw [upSteps_cons_apply c t d rest (by omega) h2]
        simp only [specAscending, if_neg h1, if_pos h2]
        rw [ih hrest]
      · rw [upSteps_cons_skip c t d rest (by omega)]
        simp only [specAscending, if_neg h1, if_neg h2]
        unfold upSteps
        rw [List.filter_eq_nil_iff]
        intro x hx
        have := hle x hx
        simp only [Bool.and_eq_true, decide_eq_true_eq, not_and, not_le]
        intro _
        omega

theorem migrateFrom_equal {DB : Type} (m : Migrator DB) (db db1 : DB) (v : Int)
    (hget : m.GetVersion db = .ok v db1) :
    migrateFrom m v ⟨db, []⟩ =
      (hook .beforeAll m.BeforeAll >>= fun _ => hook .afterAll m.AfterAll)
        ⟨db1, [.getVersion]⟩ := by
  have h1 : ¬ v > v := by omega
  have h2 : ¬ v < v := by omega
  unfold migrateFrom
  rw [call_bind_of_ok _ _ _ _ v db1 hget]
  simp only [if_neg h1, if_neg h2]
  rfl

theorem hooks_keep {DB : Type} (m : Migrator DB) (stored : DB → Int)
    (hst : FaithfulStore m stored) (e1 e2 : Event DB) (h1 h2 : Option (DatabaseFunction DB))
    (hh1 : ∀ f, h1 = some f → IsStep m f) (hh2 : ∀ f, h2 = some f → IsStep m f) (s : Run DB) :
    stored ((hook e1 h1 >>= fun _ => hook e2 h2) s).state.db = stored s.db := by
  have hk1 := hook_keeps m stored hst e1 h1 hh1 s
  rw [bind_apply]
  cases hr : hook e1 h1 s with
  | ok a s1 =>
    rw [hr] at hk1
    simp only [Result.state] at hk1
    rw [← hk1]
    exact hook_keeps m stored hst e2 h2 hh2 s1
  | panicked err s1 =>
    rw [hr] at hk1
    exact hk1

/-! ## Runs in which a callable panics -/

theorem exec_bind_assoc {DB α β γ : Type} (x : Exec DB α) (f : α → Exec DB β)
    (g : β → Exec DB γ) : (x >>= f) >>= g = x >>= fun a => f a >>= g := by
  funext s
  simp only [bind_apply]
  cases x s <;> rfl

theorem bind_of_ok {DB α β : Type} (x : Exec DB α) (f : α → Exec DB β) (s s1 : Run DB) (a : α)
    (h : x s = .ok a s1) : (x >>= f) s = f a s1 := by
  rw [bind_apply, h]

theorem bind_eq_ok {DB α β : Type} (x : Exec DB α) (f : α → Exec DB β) (s s2 : Run DB) (b : β)
    (h : (x >>= f) s = .ok b s2) : ∃ a s1, x s = .ok a s1 ∧ f a s1 = .ok b s2 := by
  rw [bind_apply] at h
  cases hx : x s with
  | ok a s1 =>
    rw [hx] at h
    exact ⟨a, s1, rfl, h⟩
  | panicked err s1 =>
    rw [hx] at h
    cases h

theorem call_bind_of_panicked {DB α β : Type} (e : Event DB) (f : DB → Result DB α)
    (k : α → Exec DB β) (s : Run DB) (err : Error) (db1 : DB)
    (h : f s.db = .panicked err db1) :
    (call e f >>= k) s = .panicked err ⟨db1, s.trace ++ [e]⟩ := by
  simp [bind_apply, call, h]

theorem migrateUp_append {DB : Type} (m : Migrator DB) (c v : Int) (l1 l2 : List (Migration DB)) :
    migrateUp m c v (l1 ++ l2) = migrateUp m c v l1 >>= fun _ => migrateUp m c v l2 := by
  induction l1 with
  | nil => rfl
  | cons d rest ih =>
    rw [List.cons_append, migrateUp_cons, migrateUp_cons]
    by_cases h1 : d.SchemaVersion ≤ c
    · simp only [if_pos h1]
      exact ih
    · by_cases h2 : d.SchemaVersion ≤ v
      · simp only [if_neg h1, if_pos h2, exec_bind_assoc, ih]
      · simp only [if_neg h1, if_neg h2]
        exact ih

theorem call_set_stored {DB : Type} (m : Migrator DB) (stored : DB → Int)
    (hst : FaithfulStore m stored) (e : Event DB) (v : Int) (s s1 : Run DB) (a : Unit)
    (h : call e (fun db => m.SetVersion db v) s = .ok a s1) : stored s1.db = v := by
  unfold call at h
  simp only [] at h
  cases hf : m.SetVersion s.db v with
  | ok b db1 =>
    rw [hf] at h
    simp only [Result.ok.injEq] at h
    rw [← h.2]
    exact hst.set s.db v db1 hf
  | panicked err db1 =>
    rw [hf] at h
    cases h

theorem call_keeps {DB : Type} (m : Migrator DB) (stored : DB → Int)
    (hst : FaithfulStore m stored) (e : Event DB) (f : DatabaseFunction DB) (hf : IsStep m f)
    (s : Run DB) : stored (call e f s).state.db = stored s.db :=
  hook_keeps m stored hst e (some f) (fun g hg => by cases hg; exact hf) s

/-- When the ascending loop returns, a faithful store holds the version of the last descriptor
it applied. -/
theorem migrateUp_stored {DB : Type} (m : Migrator DB) (stored : DB → Int)
    (hst : FaithfulStore m stored) (c v : Int) (l : List (Migration DB))
    (hl : ∀ d ∈ l, d ∈ m.migrations) :
    ∀ s s1, migrateUp m c v l s = .ok () s1 →
      stored s1.db = lastVersion (stored s.db) (upSteps c v l) := by
  induction l with
  | nil =>
    intro s s1 h
    have : s1 = s := by
      have h2 : (Result.ok () s : Result (Run DB) Unit) = .ok () s1 := h
      simp only [Result.ok.injEq, true_and] at h2
      exact h2.symm
    rw [this]
    rfl
  | cons d rest ih =>
    have hrest : ∀ x ∈ rest, x ∈ m.migrations := fun x hx => hl x (List.mem_cons_of_mem d hx)
    intro s s1 h
    rw [migrateUp_cons] at h
    by_cases h1 : d.SchemaVersion ≤ c
    · rw [if_pos h1] at h
      rw [upSteps_cons_skip c v d rest (by omega)]
      exact ih hrest s s1 h
    · rw [if_neg h1] at h
      by_cases h2 : d.SchemaVersion ≤ v
      · rw [if_pos h2] at h
        rw [upSteps_cons_apply c v d rest (by omega) h2]
        obtain ⟨_, t1, e1, h⟩ := bind_eq_ok _ _ _ _ _ h
        obtain ⟨_, t2, e2, h⟩ := bind_eq_ok _ _ _ _ _ h
        obtain ⟨a3, t3, e3, h⟩ := bind_eq_ok _ _ _ _ _ h
        obtain ⟨_, t4, e4, h⟩ := bind_eq_ok _ _ _ _ _ h
        have k4 := hook_keeps m stored hst .afterEach m.AfterEach (isStep_afterEach m) t3
        rw [e4] at k4
        simp only [Result.state] at k4
        have k3 := call_set_stored m stored hst _ d.SchemaVersion t2 t3 a3 e3
        rw [ih hrest t4 s1 h, k4, k3]
        rfl
      · rw [if_neg h2] at h
        rw [upSteps_cons_skip c v d rest (by omega)]
        exact ih hrest s s1 h

/-- The run of `MigrateTo` when the `Up` of a descriptor panics after everything before it
returned: the panic is the result, the trace ends with that call, and a faithful store holds the
version of the last descriptor applied before. -/
theorem ascent_failure {DB : Type} (m : Migrator DB) (db db1 db2 : DB) (current version : Int)
    (err : Error) (l1 l2 : List (Migration DB)) (d : Migration DB) (s : Run DB)
    (hcheck : m.CheckSequence = true → validateSequence m = none) (h1 : 1 ≤ version)
    (hreg : m.migrations = l1 ++ d :: l2)
    (hd1 : current < d.SchemaVersion) (hd2 : d.SchemaVersion ≤ version)
    (hget : m.GetVersion db = .ok current db1)
    (hbefore : (hook .beforeAll m.BeforeAll >>= fun _ =>
      migrateUp m current version l1 >>= fun _ =>
      hook .beforeEach m.BeforeEach) ⟨db1, [.getVersion]⟩ = .ok () s)
    (hfail : d.Up s.db = .panicked err db2) :
    runMigrateTo m db version = .panicked err ⟨db2, s.trace ++ [.up d]⟩ ∧
    s.trace = [.getVersion] ++ hookEvents .beforeAll m.BeforeAll ++
      (upSteps current version l1).flatMap (stepEvents m .up) ++
      hookEvents .beforeEach m.BeforeEach ∧
    ∀ stored, FaithfulStore m stored →
      stored db2 = lastVersion (stored db1) (upSteps current version l1) := by
  have hl1 : ∀ x ∈ l1, x ∈ m.migrations := by
    intro x hx
    rw [hreg]
    exact List.mem_append_left _ hx
  have hdm : d ∈ m.migrations := by
    rw [hreg]
    exact List.mem_append_right _ (List.mem_cons_self d l2)
  refine ⟨?_, ?_, fun stored hst => ?_⟩
  · have hv : version > current := by omega
    rw [runMigrateTo_pass m db version (by omega) hcheck]
    unfold migrateFrom
    rw [call_bind_of_ok _ _ _ _ current db1 hget]
    simp only [if_pos hv]
    have hsplit : (hook .beforeAll m.BeforeAll >>= fun _ =>
          migrateUp m current version m.migrations >>= fun _ => hook .afterAll m.AfterAll) =
        ((hook .beforeAll m.BeforeAll >>= fun _ =>
          migrateUp m current version l1 >>= fun _ =>
          hook .beforeEach m.BeforeEach) >>= fun _ =>
        call (.up d) d.Up >>= fun _ =>
        call (.setVersion d.SchemaVersion) (fun db => m.SetVersion db d.SchemaVersion) >>= fun _ =>
        hook .afterEach m.AfterEach >>= fun _ =>
        migrateUp m current version l2 >>= fun _ => hook .afterAll m.AfterAll) := by
      rw [hreg, migrateUp_append, migrateUp_cons, if_neg (by omega), if_pos hd2]
      simp only [exec_bind_assoc]
    rw [hsplit]
    have hs0 : (⟨db1, [] ++ [Event.getVersion]⟩ : Run DB) = ⟨db1, [.getVersion]⟩ := rfl
    rw [hs0, bind_of_ok _ _ _ _ _ hbefore]
    exact call_bind_of_panicked _ _ _ _ err db2 hfail
  · have hem : Emits (hook .beforeAll m.BeforeAll >>= fun _ =>
        migrateUp m current version l1 >>= fun _ =>
        hook .beforeEach m.BeforeEach)
        (hookEvents .beforeAll m.BeforeAll ++
          ((upSteps current version l1).flatMap (stepEvents m .up) ++
            hookEvents .beforeEach m.BeforeEach)) :=
      emits_bind (emits_hook _ _) (fun _ =>
        emits_bind (emits_migrateUp m current version l1) (fun _ => emits_hook _ _))
    obtain ⟨t, htr, -, hret⟩ := hem ⟨db1, [.getVersion]⟩
    rw [hbefore] at htr hret
    simp only [Result.state, Result.returned, forall_const] at htr hret
    rw [htr, hret]
    simp
  · obtain ⟨_, t1, e1, h⟩ := bind_eq_ok _ _ _ _ _ hbefore
    obtain ⟨_, t2, e2, h⟩ := bind_eq_ok _ _ _ _ _ h
    have k1 := hook_keeps m stored hst .beforeAll m.BeforeAll (isStep_beforeAll m)
      ⟨db1, [.getVersion]⟩
    rw [e1] at k1
    simp only [Result.state] at k1
    have k2 := migrateUp_stored m stored hst current version l1 hl1 t1 t2 e2
    have k3 := hook_keeps m stored hst .beforeEach m.BeforeEach (isStep_beforeEach m) t2
    rw [h] at k3
    simp only [Result.state] at k3
    have k4 := hst.keep d.Up (isStep_up m d hdm) s.db
    rw [hfail] at k4
    simp only [Result.state] at k4
    rw [k4, k3, k2, k1]

theorem faithful_testMigratorOf_failing (check : Bool) :
    FaithfulStore
      (testMigratorOf [testMigration 1, testMigration 2, failingMigration 3, testMigration 4] check)
      VersionDB.version where
  get := fun _ => rfl
  set := fun db v db1 h => by
    simp only [testMigratorOf, writeVersion, Result.ok.injEq, true_and] at h
    rw [← h]
  keep := fun f hf db => by
    rcases hf with h | h | h | h | ⟨d, hd, h⟩
    · cases h
    · cases h
    · cases h
    · cases h
    · simp only [testMigratorOf, List.mem_cons, List.mem_singleton, List.not_mem_nil,
        or_false] at hd
      rcases hd with rfl | rfl | rfl | rfl <;> rcases h with rfl | rfl <;> rfl

/-! ## The properties of the specification -/

/-- C2, the code at registry 1, 2, 3, 4 with the database at version 3: `MigrateTo(db, 1)`
returns after calling the `Down` of 4, 3, 2 and 1, so also that of version 4, above the current
version. -/
theorem C2_descent_runs_down_above_current :
    (runMigrateTo (testMigrator [1, 2, 3, 4] true none none) ⟨3⟩ 1).returned = true ∧
      versionsOf (downs (runMigrateTo (testMigrator [1, 2, 3, 4] true none none) ⟨3⟩ 1).state.trace)
        = [4, 3, 2, 1] := by
  decide

/-- C3. Persisted version: on a registry (of `int` versions) that satisfies I1 and holds a
descriptor of version `target`, with `target ≥ 1`, a faithful version store holding any initial
version and callables that all succeed, `MigrateTo(db, target)` returns and the store then reads
`target`. -/
theorem C3_persisted_version {DB : Type} (m : Migrator DB) (db : DB) (target : Int)
    (stored : DB → Int)
    (hint : ∀ d ∈ m.migrations, minInt ≤ d.SchemaVersion ∧ d.SchemaVersion ≤ maxInt)
    (hI1 : I1 m.migrations) (hspan : ∃ d ∈ m.migrations, d.SchemaVersion = target)
    (h1 : 1 ≤ target) (hst : FaithfulStore m stored) (hs : AllSucceed m) :
    ∃ s, runMigrateTo m db target = .ok () s ∧ m.GetVersion s.db = .ok target s.db := by
  obtain ⟨s, hrun, -, hstored⟩ := runMigrateTo_ok m hs db db target (stored db) (by omega)
    (fun _ => validateSequence_of_I1 m hint hI1) (hst.get db)
  refine ⟨s, hrun, ?_⟩
  rw [hst.get s.db, hstored stored hst,
    lastVersion_steps m (stored db) target (strictlyAscending_of_I1 _ hI1) hspan]

/-- C3, on the registry 1, 2, 3, 4 with the database at version 3: after `MigrateTo(db, 1)` the
store reads 1. -/
theorem C3_persisted_version_witness :
    ∃ s, runMigrateTo (testMigrator [1, 2, 3, 4] true none none) ⟨3⟩ 1 = .ok () s ∧
      readVersion s.db = .ok 1 s.db :=
  C3_persisted_version (testMigrator [1, 2, 3, 4] true none none) ⟨3⟩ 1 VersionDB.version
    (by simp [testMigrator, testMigration, minInt, maxInt])
    (by simp [I1, testMigrator, testMigration]) ⟨testMigration 1, by simp [testMigrator], rfl⟩
    (by decide)
    (faithful_testMigrator _ _ _ _ (fun _ h => nomatch h) (fun _ h => nomatch h))
    (allSucceed_testMigrator _ _ _ _ (fun _ h => nomatch h) (fun _ h => nomatch h))

/-- C4. Invalid target: for every migrator and every target `≤ 0`, `MigrateTo` panics with the
invalid-target error, on an unchanged database and with an empty trace: no callable was called. -/
theorem C4_invalid_target {DB : Type} (m : Migrator DB) (db : DB) (version : Int)
    (hv : version ≤ 0) :
    runMigrateTo m db version = .panicked "SchemaVersion must be >= 1" ⟨db, []⟩ :=
  runMigrateTo_invalid m db version hv

/-- C4, on a fresh migrator: `MigrateTo(db, -1)` panics. -/
theorem C4_invalid_target_witness :
    runMigrateTo (NewMigrator readVersion writeVersion) ⟨0⟩ (-1) =
      .panicked "SchemaVersion must be >= 1" ⟨⟨0⟩, []⟩ :=
  C4_invalid_target (NewMigrator readVersion writeVersion) ⟨0⟩ (-1) (by decide)

/-- C6 as stated fails: the registry of the largest `int` followed by the smallest is accepted,
because `last+1` wraps around, although its pair does not satisfy
`b.SchemaVersion = a.SchemaVersion + 1`. -/
theorem C6_wraparound_accepted :
    validateSequence
        (testMigrator [9223372036854775807, -9223372036854775808] true none none) = none ∧
    ¬ List.Chain' (fun a b => b.SchemaVersion = a.SchemaVersion + 1)
      (testMigrator [9223372036854775807, -9223372036854775808] true none none).migrations := by
  refine ⟨by decide, ?_⟩
  simp [testMigrator, testMigration]

/-- C6, amended. On a registry of `int` versions in which the largest `int` is nowhere directly
followed by the smallest, `validateSequence` decides I1: it returns no error exactly when every
adjacent pair satisfies `b.SchemaVersion = a.SchemaVersion + 1`.  The empty registry and every
registry of one descriptor, whatever its version, are accepted. -/
theorem C6_validateSequence_decides_I1 {DB : Type} (m : Migrator DB)
    (hint : ∀ d ∈ m.migrations, minInt ≤ d.SchemaVersion ∧ d.SchemaVersion ≤ maxInt)
    (hwrap : m.migrations.Chain'
      (fun a b => ¬ (a.SchemaVersion = maxInt ∧ b.SchemaVersion = minInt))) :
    (validateSequence m = none ↔
      List.Chain' (fun a b => b.SchemaVersion = a.SchemaVersion + 1) m.migrations) ∧
    validateSequence { m with migrations := [] } = none ∧
    ∀ d : Migration DB, validateSequence { m with migrations := [d] } = none :=
  ⟨validateSequence_none_iff m hint hwrap, rfl, fun _ => rfl⟩

/-- C6 amended, on the registries 3, 4, 5, which is in sequence and accepted, and 3, 5, which
is not and is rejected. -/
theorem C6_validateSequence_decides_I1_witness :
    validateSequence (testMigrator [3, 4, 5] true none none) = none ∧
    validateSequence (testMigrator [3, 5] true none none) ≠ none :=
  ⟨(C6_validateSequence_decides_I1 (testMigrator [3, 4, 5] true none none)
      (by simp [testMigrator, testMigration, minInt, maxInt])
      (by simp [testMigrator, testMigration, minInt, maxInt])).1.mpr
      (by simp [testMigrator, testMigration]),
    fun h => absurd
      ((C6_validateSequence_decides_I1 (testMigrator [3, 5] true none none)
        (by simp [testMigrator, testMigration, minInt, maxInt])
        (by simp [testMigrator, testMigration, minInt, maxInt])).1.mp h)
      (by simp [testMigrator, testMigration])⟩

/-- C8. Direction: whatever the callables do and whatever the registry, once `GetVersion` has
returned `current`, `MigrateTo` calls no `Down` when `target > current`, no `Up` when
`target < current`, and no `Up`, no `Down` and no `SetVersion` when `target = current`. -/
theorem C8_direction {DB : Type} (m : Migrator DB) (db db1 : DB) (current version : Int)
    (hget : m.GetVersion db = .ok current db1) :
    (version > current → downs (runMigrateTo m db version).state.trace = []) ∧
    (version < current → ups (runMigrateTo m db version).state.trace = []) ∧
    (version = current →
      ups (runMigrateTo m db version).state.trace = [] ∧
      downs (runMigrateTo m db version).state.trace = [] ∧
      setVersions (runMigrateTo m db version).state.trace = []) := by
  have hpre := (runMigrateTo_trace m db db1 version current hget).1
  have hu := List.IsPrefix.filterMap Event.upOf hpre
  have hd := List.IsPrefix.filterMap Event.downOf hpre
  have hsv := List.IsPrefix.filterMap Event.setOf hpre
  have hup : List.filterMap Event.upOf (plan m current version) = ups (plan m current version) :=
    rfl
  have hdown : List.filterMap Event.downOf (plan m current version) =
      downs (plan m current version) := rfl
  have hset : List.filterMap Event.setOf (plan m current version) =
      setVersions (plan m current version) := rfl
  rw [hup, ups_plan] at hu
  rw [hdown, downs_plan] at hd
  rw [hset, setVersions_plan] at hsv
  refine ⟨fun h => ?_, fun h => ?_, fun h => ⟨?_, ?_, ?_⟩⟩
  · rw [if_pos h] at hd
    exact List.prefix_nil.mp hd
  · rw [if_neg (by omega)] at hu
    exact List.prefix_nil.mp hu
  · rw [if_neg (by omega)] at hu
    exact List.prefix_nil.mp hu
  · have hs : steps m current version = [] := by
      unfold steps
      rw [if_neg (by omega), if_neg (by omega)]
    rw [if_neg (by omega), hs] at hd
    exact List.prefix_nil.mp hd
  · have hs : steps m current version = [] := by
      unfold steps
      rw [if_neg (by omega), if_neg (by omega)]
    rw [hs] at hsv
    exact List.prefix_nil.mp hsv

/-- C8, on the registry 1, 2, 3, 4: up from 0 to 3 calls no `Down`, down from 3 to 1 calls no
`Up`, and from 2 to 2 neither is called, nor `SetVersion`. -/
theorem C8_direction_witness :
    downs (runMigrateTo (testMigrator [1, 2, 3, 4] true none none) ⟨0⟩ 3).state.trace = [] ∧
    ups (runMigrateTo (testMigrator [1, 2, 3, 4] true none none) ⟨3⟩ 1).state.trace = [] ∧
    (ups (runMigrateTo (testMigrator [1, 2, 3, 4] true none none) ⟨2⟩ 2).state.trace = [] ∧
      downs (runMigrateTo (testMigrator [1, 2, 3, 4] true none none) ⟨2⟩ 2).state.trace = [] ∧
      setVersions (runMigrateTo (testMigrator [1, 2, 3, 4] true none none) ⟨2⟩ 2).state.trace
        = []) :=
  ⟨(C8_direction (testMigrator [1, 2, 3, 4] true none none) ⟨0⟩ ⟨0⟩ 0 3 rfl).1 (by decide),
    (C8_direction (testMigrator [1, 2, 3, 4] true none none) ⟨3⟩ ⟨3⟩ 3 1 rfl).2.1 (by decide),
    (C8_direction (testMigrator [1, 2, 3, 4] true none none) ⟨2⟩ ⟨2⟩ 2 2 rfl).2.2 rfl⟩

/-- C9 as stated fails: with `BeforeEach` configured and `AfterEach` left `nil`, on the registry
1 with a fresh database, `MigrateTo(db, 1)` returns after one `BeforeEach`, one step and no
`AfterEach`. -/
theorem C9_unpaired_hook :
    (runMigrateTo (testMigrator [1] true (some NoopDBFunc) none) ⟨0⟩ 1).returned = true ∧
    count .beforeEach (runMigrateTo (testMigrator [1] true (some NoopDBFunc) none) ⟨0⟩ 1).state.trace
      = 1 ∧
    count .up (runMigrateTo (testMigrator [1] true (some NoopDBFunc) none) ⟨0⟩ 1).state.trace = 1 ∧
    count .afterEach (runMigrateTo (testMigrator [1] true (some NoopDBFunc) none) ⟨0⟩ 1).state.trace
      = 0 := by
  decide

/-- C9, amended. The trace of a `MigrateTo` call that returns is `GetVersion`, `BeforeAll` if
configured, then for each executed step `d` one block `BeforeEach` if configured, the step (all
steps `Up` or all steps `Down`), `SetVersion(d.SchemaVersion)`, `AfterEach` if configured, then
`AfterAll` if configured.  So a configured `BeforeEach` (`AfterEach`) is called once per
executed step, in its block, and a hook that is `nil` never; the number of `Up` and `Down`
calls and of `SetVersion` calls is the number of steps; `BeforeAll` and `AfterAll` are called at
most once. -/
theorem C9_hook_pairing {DB : Type} (m : Migrator DB) (db : DB) (version : Int)
    (hret : (runMigrateTo m db version).returned = true) :
    ∃ (dir : Migration DB → Event DB) (ds : List (Migration DB)),
      (dir = Event.up ∨ dir = Event.down) ∧
      (runMigrateTo m db version).state.trace =
        [.getVersion] ++ hookEvents .beforeAll m.BeforeAll ++
          ds.flatMap (fun d => hookEvents .beforeEach m.BeforeEach ++
            [dir d, .setVersion d.SchemaVersion] ++ hookEvents .afterEach m.AfterEach) ++
          hookEvents .afterAll m.AfterAll ∧
      count .beforeEach (runMigrateTo m db version).state.trace =
        (if m.BeforeEach.isSome = true then ds.length else 0) ∧
      count .afterEach (runMigrateTo m db version).state.trace =
        (if m.AfterEach.isSome = true then ds.length else 0) ∧
      count .up (runMigrateTo m db version).state.trace +
        count .down (runMigrateTo m db version).state.trace = ds.length ∧
      count .setVersion (runMigrateTo m db version).state.trace = ds.length ∧
      count .beforeAll (runMigrateTo m db version).state.trace ≤ 1 ∧
      count .afterAll (runMigrateTo m db version).state.trace ≤ 1 := by
  obtain ⟨current, db1, hget⟩ := runMigrateTo_returned m db version hret
  have htr := (runMigrateTo_trace m db db1 version current hget).2 hret
  rw [htr]
  exact ⟨direction current version, steps m current version, direction_cases current version,
    rfl, count_plan_kinds m current version⟩

/-- C9 amended, with both hooks configured on the registry 1, 2, 3, 4 and a fresh database:
`MigrateTo(db, 3)` calls `BeforeEach` and `AfterEach` three times each, around three steps. -/
theorem C9_hook_pairing_witness :
    ∃ (dir : Migration VersionDB → Event VersionDB) (ds : List (Migration VersionDB)),
      (dir = Event.up ∨ dir = Event.down) ∧
      (runMigrateTo (testMigrator [1, 2, 3, 4] true (some NoopDBFunc) (some NoopDBFunc)) ⟨0⟩
          3).state.trace =
        [.getVersion] ++ hookEvents .beforeAll none ++
          ds.flatMap (fun d => hookEvents .beforeEach (some NoopDBFunc) ++
            [dir d, .setVersion d.SchemaVersion] ++ hookEvents .afterEach (some NoopDBFunc)) ++
          hookEvents .afterAll none ∧
      count .beforeEach (runMigrateTo (testMigrator [1, 2, 3, 4] true (some NoopDBFunc)
        (some NoopDBFunc)) ⟨0⟩ 3).state.trace = 3 ∧
      count .afterEach (runMigrateTo (testMigrator [1, 2, 3, 4] true (some NoopDBFunc)
        (some NoopDBFunc)) ⟨0⟩ 3).state.trace = 3 ∧
      count .up (runMigrateTo (testMigrator [1, 2, 3, 4] true (some NoopDBFunc)
        (some NoopDBFunc)) ⟨0⟩ 3).state.trace = 3 := by
  obtain ⟨dir, ds, hdir, htr, -⟩ :=
    C9_hook_pairing (testMigrator [1, 2, 3, 4] true (some NoopDBFunc) (some NoopDBFunc)) ⟨0⟩ 3
      (by decide)
  exact ⟨dir, ds, hdir, htr, by decide, by decide, by decide⟩

/-- C10 as stated fails: with `CheckSequence` off and the registry 2, 1 on a fresh database,
`MigrateTo(db, 2)` returns and leaves version 1, and a second `MigrateTo(db, 2)` calls the `Up`
of version 2 again and leaves version 2. -/
theorem C10_second_run_repeats_up :
    (runMigrateTo (testMigrator [2, 1] false none none) ⟨0⟩ 2).returned = true ∧
    (runMigrateTo (testMigrator [2, 1] false none none) ⟨0⟩ 2).state.db = ⟨1⟩ ∧
    versionsOf (ups (runMigrateTo (testMigrator [2, 1] false none none)
      (runMigrateTo (testMigrator [2, 1] false none none) ⟨0⟩ 2).state.db 2).state.trace) = [2] ∧
    (runMigrateTo (testMigrator [2, 1] false none none)
      (runMigrateTo (testMigrator [2, 1] false none none) ⟨0⟩ 2).state.db 2).state.db = ⟨2⟩ := by
  decide

/-- C10, amended. Ascending idempotence for a registry registered in ascending version order,
or any registry when `CheckSequence` is on (its versions `int`s, the largest `int` nowhere
directly followed by the smallest): for a target `v ≥ 1` with `v ≥ current`, a faithful store
and callables that all succeed, a second `MigrateTo(db, v)` right after the first calls no `Up`,
no `Down` and no `SetVersion`, and leaves the persisted version as the first run left it. -/
theorem C10_ascending_idempotence {DB : Type} (m : Migrator DB) (db : DB) (v : Int)
    (stored : DB → Int)
    (hord : (m.CheckSequence = true ∧
        (∀ d ∈ m.migrations, minInt ≤ d.SchemaVersion ∧ d.SchemaVersion ≤ maxInt) ∧
        m.migrations.Chain'
          (fun a b => ¬ (a.SchemaVersion = maxInt ∧ b.SchemaVersion = minInt))) ∨
      m.migrations.Pairwise (fun a b => a.SchemaVersion ≤ b.SchemaVersion))
    (h1 : 1 ≤ v) (hge : stored db ≤ v) (hst : FaithfulStore m stored) (hs : AllSucceed m) :
    ups (runMigrateTo m (runMigrateTo m db v).state.db v).state.trace = [] ∧
    downs (runMigrateTo m (runMigrateTo m db v).state.db v).state.trace = [] ∧
    setVersions (runMigrateTo m (runMigrateTo m db v).state.db v).state.trace = [] ∧
    m.GetVersion (runMigrateTo m (runMigrateTo m db v).state.db v).state.db =
      .ok (stored (runMigrateTo m db v).state.db)
        (runMigrateTo m (runMigrateTo m db v).state.db v).state.db := by
  obtain ⟨hu, hd, hsv, hstored⟩ := second_run m db v stored hord h1 hge hst hs
  refine ⟨hu, hd, hsv, ?_⟩
  rw [hst.get, hstored]

/-- C10 amended, on the registry 1, 2, 3, 4 with a fresh database: a second `MigrateTo(db, 3)`
calls no step and the store still reads what the first run left. -/
theorem C10_ascending_idempotence_witness :
    ups (runMigrateTo (testMigrator [1, 2, 3, 4] true none none)
      (runMigrateTo (testMigrator [1, 2, 3, 4] true none none) ⟨0⟩ 3).state.db 3).state.trace
        = [] ∧
    downs (runMigrateTo (testMigrator [1, 2, 3, 4] true none none)
      (runMigrateTo (testMigrator [1, 2, 3, 4] true none none) ⟨0⟩ 3).state.db 3).state.trace
        = [] ∧
    setVersions (runMigrateTo (testMigrator [1, 2, 3, 4] true none none)
      (runMigrateTo (testMigrator [1, 2, 3, 4] true none none) ⟨0⟩ 3).state.db 3).state.trace
        = [] ∧
    readVersion (runMigrateTo (testMigrator [1, 2, 3, 4] true none none)
      (runMigrateTo (testMigrator [1, 2, 3, 4] true none none) ⟨0⟩ 3).state.db 3).state.db =
      .ok (runMigrateTo (testMigrator [1, 2, 3, 4] true none none) ⟨0⟩ 3).state.db.version
        (runMigrateTo (testMigrator [1, 2, 3, 4] true none none)
          (runMigrateTo (testMigrator [1, 2, 3, 4] true none none) ⟨0⟩ 3).state.db 3).state.db :=
  C10_ascending_idempotence (testMigrator [1, 2, 3, 4] true none none) ⟨0⟩ 3
    VersionDB.version
    (Or.inl ⟨rfl, by simp [testMigrator, testMigration, minInt, maxInt],
      by simp [testMigrator, testMigration, minInt, maxInt]⟩)
    (by decide) (by decide)
    (faithful_testMigrator _ _ _ _ (fun _ h => nomatch h) (fun _ h => nomatch h))
    (allSucceed_testMigrator _ _ _ _ (fun _ h => nomatch h) (fun _ h => nomatch h))

/-- C11. `MigrateToLatest`: on a non-empty registry it is `MigrateTo` with the `SchemaVersion` of
the last registered descriptor (the same result on every database: same failure, same calls,
same final database); on the empty registry it panics on the index expression, on an unchanged
database and with an empty trace. -/
theorem C11_migrateToLatest {DB : Type} (m : Migrator DB) (db : DB) :
    (∀ h : m.migrations ≠ [],
      runMigrateToLatest m db = runMigrateTo m db (m.migrations.getLast h).SchemaVersion) ∧
    (m.migrations = [] →
      runMigrateToLatest m db = .panicked "runtime error: index out of range [-1]" ⟨db, []⟩) :=
  ⟨fun h => runMigrateToLatest_nonempty m h db, fun h => runMigrateToLatest_empty m h db⟩

/-- C11, on the registry 1, 2, 3, 4 with a fresh database, `MigrateToLatest` is `MigrateTo(db, 4)`,
which calls the `Up` of 1 to 4 and leaves version 4; on a fresh migrator it panics and calls
nothing. -/
theorem C11_migrateToLatest_witness :
    (runMigrateToLatest (testMigrator [1, 2, 3, 4] true none none) ⟨0⟩ =
        runMigrateTo (testMigrator [1, 2, 3, 4] true none none) ⟨0⟩ 4 ∧
      versionsOf (ups (runMigrateTo (testMigrator [1, 2, 3, 4] true none none) ⟨0⟩ 4).state.trace)
        = [1, 2, 3, 4] ∧
      (runMigrateTo (testMigrator [1, 2, 3, 4] true none none) ⟨0⟩ 4).state.db = ⟨4⟩) ∧
    runMigrateToLatest (NewMigrator readVersion writeVersion) ⟨0⟩ =
      .panicked "runtime error: index out of range [-1]" ⟨⟨0⟩, []⟩ :=
  ⟨⟨(C11_migrateToLatest (testMigrator [1, 2, 3, 4] true none none) ⟨0⟩).1
      (by simp [testMigrator]), by decide, by decide⟩,
    (C11_migrateToLatest (NewMigrator readVersion writeVersion) ⟨0⟩).2 rfl⟩

/-- C16. Registration is a pure append: after `RegisterMigrations(ds...)` the registry is the old
registry followed by `ds` in the order given, whatever `ds` holds, and `CheckSequence`,
`GetVersion`, `SetVersion` and the four hooks are unchanged. -/
theorem C16_register_appends {DB : Type} (m : Migrator DB) (ds : List (Migration DB)) :
    (RegisterMigrations m ds).migrations = m.migrations ++ ds ∧
    (RegisterMigrations m ds).CheckSequence = m.CheckSequence ∧
    (RegisterMigrations m ds).GetVersion = m.GetVersion ∧
    (RegisterMigrations m ds).SetVersion = m.SetVersion ∧
    (RegisterMigrations m ds).BeforeAll = m.BeforeAll ∧
    (RegisterMigrations m ds).AfterAll = m.AfterAll ∧
    (RegisterMigrations m ds).BeforeEach = m.BeforeEach ∧
    (RegisterMigrations m ds).AfterEach = m.AfterEach := by
  rw [registerMigrations_eq]
  exact ⟨rfl, rfl, rfl, rfl, rfl, rfl, rfl, rfl⟩

/-- C17 as stated fails: the registry of the largest `int` followed by the smallest is accepted,
because `last+1` wraps around; it is not in ascending order and its second version is not the
first plus one. -/
theorem C17_wraparound_not_ascending :
    validateSequence
        (testMigrator [9223372036854775807, -9223372036854775808] true none none) = none ∧
    ¬ (testMigrator [9223372036854775807, -9223372036854775808] true none none).migrations.Pairwise
      (fun a b => a.SchemaVersion < b.SchemaVersion) ∧
    versionsOf (testMigrator [9223372036854775807, -9223372036854775808] true none none).migrations
      ≠ [9223372036854775807, 9223372036854775807 + 1] := by
  refine ⟨by decide, ?_, by decide⟩
  simp [testMigrator, testMigration]

/-- C17, amended. On a registry of `int` versions in which the largest `int` is nowhere directly
followed by the smallest, the validator enforces ascending order and rejects duplicates: if
`validateSequence` accepts, the descriptor at index `i` has the first descriptor's version plus
`i`, the versions are strictly ascending in registration order and pairwise distinct; so such a
registry that is not strictly ascending (a repeated version, or one out of order) is
rejected. -/
theorem C17_validator_ascending {DB : Type} (m : Migrator DB)
    (hint : ∀ d ∈ m.migrations, minInt ≤ d.SchemaVersion ∧ d.SchemaVersion ≤ maxInt)
    (hwrap : m.migrations.Chain'
      (fun a b => ¬ (a.SchemaVersion = maxInt ∧ b.SchemaVersion = minInt))) :
    (validateSequence m = none →
      (∀ (i : Nat) (d d0 : Migration DB), m.migrations[i]? = some d → m.migrations[0]? = some d0 →
        d.SchemaVersion = d0.SchemaVersion + i) ∧
      m.migrations.Pairwise (fun a b => a.SchemaVersion < b.SchemaVersion) ∧
      (versionsOf m.migrations).Nodup) ∧
    (¬ m.migrations.Pairwise (fun a b => a.SchemaVersion < b.SchemaVersion) →
      validateSequence m ≠ none) := by
  have hmain : validateSequence m = none → StrictlyAscending m.migrations := fun h =>
    strictlyAscending_of_I1 _ ((validateSequence_none_iff m hint hwrap).mp h)
  refine ⟨fun h => ⟨?_, hmain h, nodup_of_strictlyAscending _ (hmain h)⟩, fun hn h => hn (hmain h)⟩
  exact version_at_of_I1 _ ((validateSequence_none_iff m hint hwrap).mp h)

/-- C17 amended, on the registry 3, 4, 5, which is accepted, and on 1, 1 and 2, 1, which are
rejected. -/
theorem C17_validator_ascending_witness :
    ((∀ (i : Nat) (d d0 : Migration VersionDB),
        (testMigrator [3, 4, 5] true none none).migrations[i]? = some d →
        (testMigrator [3, 4, 5] true none none).migrations[0]? = some d0 →
        d.SchemaVersion = d0.SchemaVersion + i) ∧
      (testMigrator [3, 4, 5] true none none).migrations.Pairwise
        (fun a b => a.SchemaVersion < b.SchemaVersion) ∧
      (versionsOf (testMigrator [3, 4, 5] true none none).migrations).Nodup) ∧
    validateSequence (testMigrator [1, 1] true none none) ≠ none ∧
    validateSequence (testMigrator [2, 1] true none none) ≠ none :=
  ⟨(C17_validator_ascending (testMigrator [3, 4, 5] true none none)
      (by simp [testMigrator, testMigration, minInt, maxInt])
      (by simp [testMigrator, testMigration, minInt, maxInt])).1 (by decide),
    (C17_validator_ascending (testMigrator [1, 1] true none none)
      (by simp [testMigrator, testMigration, minInt, maxInt])
      (by simp [testMigrator, testMigration, minInt, maxInt])).2
      (by simp [testMigrator, testMigration]),
    (C17_validator_ascending (testMigrator [2, 1] true none none)
      (by simp [testMigrator, testMigration, minInt, maxInt])
      (by simp [testMigrator, testMigration, minInt, maxInt])).2
      (by simp [testMigrator, testMigration])⟩

/-- C18. Constructor defaults: `NewMigrator(getVersion, setVersion)` has `CheckSequence` true, an
empty registry, the two given version functions, and no hook. -/
theorem C18_newMigrator_defaults {DB : Type} (getVersion : GetVersionFunc DB)
    (setVersion : SetVersionFunction DB) :
    (NewMigrator getVersion setVersion).CheckSequence = true ∧
    (NewMigrator getVersion setVersion).migrations = [] ∧
    (NewMigrator getVersion setVersion).GetVersion = getVersion ∧
    (NewMigrator getVersion setVersion).SetVersion = setVersion ∧
    (NewMigrator getVersion setVersion).BeforeAll = none ∧
    (NewMigrator getVersion setVersion).AfterAll = none ∧
    (NewMigrator getVersion setVersion).BeforeEach = none ∧
    (NewMigrator getVersion setVersion).AfterEach = none :=
  ⟨rfl, rfl, rfl, rfl, rfl, rfl, rfl, rfl⟩

/-- C20. `reverse` is list reversal: the result has the length of the slice, its element at
index `i` is the element of the slice at `n - 1 - i`, reversing twice gives the slice back, and
the result is the registry read from the last registered descriptor to the first. -/
theorem C20_reverse {DB : Type} (s : List (Migration DB)) :
    (reverse s).length = s.length ∧
    (∀ i, i < s.length → (reverse s)[i]? = s[s.length - 1 - i]?) ∧
    reverse (reverse s) = s ∧
    reverse s = s.reverse := by
  refine ⟨by rw [reverse_eq, List.length_reverse], getElem?_reverse_eq s, ?_, reverse_eq s⟩
  rw [reverse_eq, reverse_eq, List.reverse_reverse]

/-- C20, on the slice 1, 2, 3: the element at index 0 of the result is the one at index 2. -/
theorem C20_reverse_witness :
    (reverse [testMigration 1, testMigration 2, testMigration 3])[0]? =
      [testMigration 1, testMigration 2, testMigration 3][3 - 1 - 0]? :=
  (C20_reverse [testMigration 1, testMigration 2, testMigration 3]).2.1 0 (by decide)

/-- C12. Ascending event order: when the configured sequence check passes, the target is above
the version read and every callable succeeds, the complete trace of `MigrateTo` is `GetVersion`
(once), `BeforeAll` if configured, then for each descriptor with
`current < SchemaVersion ≤ target`, in registration order, the block `BeforeEach` if configured,
its `Up`, `SetVersion` with its own version, `AfterEach` if configured, then `AfterAll` if
configured; a hook that is `nil` contributes no event. -/
theorem C12_ascending_trace {DB : Type} (m : Migrator DB) (db db1 : DB) (current version : Int)
    (hcheck : m.CheckSequence = true → validateSequence m = none)
    (hget : m.GetVersion db = .ok current db1) (hs : AllSucceed m)
    (h1 : 1 ≤ version) (hlt : current < version) :
    ∃ s, runMigrateTo m db version = .ok () s ∧
      s.trace = [.getVersion] ++ hookEvents .beforeAll m.BeforeAll ++
        (m.migrations.filter (fun d =>
          decide (current < d.SchemaVersion) && decide (d.SchemaVersion ≤ version))).flatMap
          (fun d => hookEvents .beforeEach m.BeforeEach ++
            [.up d, .setVersion d.SchemaVersion] ++ hookEvents .afterEach m.AfterEach) ++
        hookEvents .afterAll m.AfterAll ∧
      count .getVersion s.trace = 1 ∧
      ∀ e : Event DB, hookEvents e none = [] := by
  obtain ⟨s, hrun, htr, -⟩ := runMigrateTo_ok m hs db db1 version current (by omega) hcheck hget
  refine ⟨s, hrun, by rw [htr, plan_ascending m current version hlt], ?_, fun _ => rfl⟩
  rw [htr, count_plan m current version .getVersion 0]
  · simp
  · intro d
    rw [count_stepEvents, direction_kind]
    by_cases h : version > current <;> simp [h]

/-- C12, on the registry 1, 2, 3, 4 with both per-step hooks and a fresh database: the kinds of
the calls of `MigrateTo(db, 2)`, in order. -/
theorem C12_ascending_trace_witness :
    ∃ s, runMigrateTo (testMigrator [1, 2, 3, 4] true (some NoopDBFunc) (some NoopDBFunc)) ⟨0⟩ 2
        = .ok () s ∧
      s.trace.map Event.kind =
        [.getVersion, .beforeEach, .up, .setVersion, .afterEach,
          .beforeEach, .up, .setVersion, .afterEach] ∧
      setVersions s.trace = [1, 2] := by
  obtain ⟨s, hrun, htr, -⟩ :=
    C12_ascending_trace (testMigrator [1, 2, 3, 4] true (some NoopDBFunc) (some NoopDBFunc))
      ⟨0⟩ ⟨0⟩ 0 2 (fun _ => by decide) rfl
      (allSucceed_testMigrator _ _ _ _ (fun _ h => by cases h; rfl) (fun _ h => by cases h; rfl))
      (by decide) (by decide)
  refine ⟨s, hrun, ?_, ?_⟩
  · rw [htr]; decide
  · rw [htr]; decide

/-- C13. Descending algorithm: when the configured sequence check passes, `1 ≤ target < current`
and every callable succeeds, `MigrateTo` walks the reversed registry from the last registered
descriptor, stops at the first descriptor with `SchemaVersion < target`, and for every descriptor
before that its trace holds the block `BeforeEach` if configured, its `Down`, `SetVersion` with
the version just reversed, `AfterEach` if configured; a faithful store therefore ends on the
version of the last descriptor reversed (version N after `Down` of N), and is untouched when
none was reversed. -/
theorem C13_descending_trace {DB : Type} (m : Migrator DB) (db db1 : DB) (current target : Int)
    (hcheck : m.CheckSequence = true → validateSequence m = none)
    (hget : m.GetVersion db = .ok current db1) (hs : AllSucceed m)
    (h1 : 1 ≤ target) (hlt : target < current) :
    ∃ s, runMigrateTo m db target = .ok () s ∧
      s.trace = [.getVersion] ++ hookEvents .beforeAll m.BeforeAll ++
        ((reverse m.migrations).takeWhile (fun d => decide (target ≤ d.SchemaVersion))).flatMap
          (fun d => hookEvents .beforeEach m.BeforeEach ++
            [.down d, .setVersion d.SchemaVersion] ++ hookEvents .afterEach m.AfterEach) ++
        hookEvents .afterAll m.AfterAll ∧
      ∀ stored, FaithfulStore m stored →
        ((reverse m.migrations).takeWhile (fun d => decide (target ≤ d.SchemaVersion)) = [] →
          stored s.db = stored db1) ∧
        ∀ pre d,
          (reverse m.migrations).takeWhile (fun d => decide (target ≤ d.SchemaVersion))
            = pre ++ [d] →
          stored s.db = d.SchemaVersion := by
  obtain ⟨s, hrun, htr, hstored⟩ :=
    runMigrateTo_ok m hs db db1 target current (by omega) hcheck hget
  refine ⟨s, hrun, by rw [htr, plan_descending m current target hlt], fun stored hst => ?_⟩
  have hsteps : steps m current target =
      (reverse m.migrations).takeWhile (fun d => decide (target ≤ d.SchemaVersion)) := by
    have hn : ¬ target > current := by omega
    simp only [steps, if_neg hn, if_pos hlt, reverse_eq, downSteps]
  have hv := hstored stored hst
  rw [hsteps] at hv
  refine ⟨fun hnil => ?_, fun pre d hsplit => ?_⟩
  · rw [hv, hnil]; rfl
  · rw [hv, hsplit, lastVersion_append_singleton]

/-- C13, on the registry 1, 2, 3, 4 with the database at version 4: `MigrateTo(db, 3)` reverses
4 and 3, records 4 and then 3, and the store ends on 3. -/
theorem C13_descending_trace_witness :
    ∃ s, runMigrateTo (testMigrator [1, 2, 3, 4] true none none) ⟨4⟩ 3 = .ok () s ∧
      s.trace.map Event.kind = [.getVersion, .down, .setVersion, .down, .setVersion] ∧
      versionsOf (downs s.trace) = [4, 3] ∧ setVersions s.trace = [4, 3] ∧
      s.db.version = 3 := by
  obtain ⟨s, hrun, htr, hstored⟩ :=
    C13_descending_trace (testMigrator [1, 2, 3, 4] true none none) ⟨4⟩ ⟨4⟩ 4 3
      (fun _ => by decide) rfl
      (allSucceed_testMigrator _ _ _ _ (fun _ h => nomatch h) (fun _ h => nomatch h))
      (by decide) (by decide)
  refine ⟨s, hrun, by rw [htr]; decide, by rw [htr]; decide, by rw [htr]; decide, ?_⟩
  exact (hstored VersionDB.version
    (faithful_testMigrator _ _ _ _ (fun _ h => nomatch h) (fun _ h => nomatch h))).2
    [testMigration 4] (testMigration 3) (by rfl)

/-- C14. Equal case: when the configured sequence check passes, the target is at least 1 and
`GetVersion` returns exactly the target, `MigrateTo` runs no step: its trace is a beginning of
`GetVersion`, `BeforeAll` if configured, `AfterAll` if configured, all of it when the run
returns, which it does when the callables succeed; it holds no `BeforeEach`, `AfterEach`, `Up`,
`Down` or `SetVersion`; and a faithful store still reads the target. -/
theorem C14_equal_case {DB : Type} (m : Migrator DB) (db db1 : DB) (target : Int)
    (hcheck : m.CheckSequence = true → validateSequence m = none)
    (h1 : 1 ≤ target) (hget : m.GetVersion db = .ok target db1) :
    ((runMigrateTo m db target).state.trace <+:
      [.getVersion] ++ hookEvents .beforeAll m.BeforeAll ++ hookEvents .afterAll m.AfterAll) ∧
    ((runMigrateTo m db target).returned = true →
      (runMigrateTo m db target).state.trace =
        [.getVersion] ++ hookEvents .beforeAll m.BeforeAll ++ hookEvents .afterAll m.AfterAll) ∧
    (AllSucceed m → (runMigrateTo m db target).returned = true) ∧
    (∀ e ∈ (runMigrateTo m db target).state.trace,
      e.kind = .getVersion ∨ e.kind = .beforeAll ∨ e.kind = .afterAll) ∧
    (∀ stored, FaithfulStore m stored →
      m.GetVersion (runMigrateTo m db target).state.db =
        .ok target (runMigrateTo m db target).state.db) := by
  obtain ⟨hpre, hret⟩ := runMigrateTo_trace m db db1 target target hget
  rw [plan_equal] at hpre hret
  refine ⟨hpre, hret, fun hs => ?_, fun e he => ?_, fun stored hst => ?_⟩
  · obtain ⟨s, hrun, -⟩ := runMigrateTo_ok m hs db db1 target target (by omega) hcheck hget
    rw [hrun]
    rfl
  · have hmem := hpre.subset he
    simp only [List.mem_append, List.mem_singleton] at hmem
    rcases hmem with (hg | hb) | ha
    · rw [hg]; exact Or.inl rfl
    · exact Or.inr (Or.inl (kind_of_mem_hookEvents _ _ _ hb))
    · exact Or.inr (Or.inr (kind_of_mem_hookEvents _ _ _ ha))
  · have hg := hst.get db
    rw [hget] at hg
    simp only [Result.ok.injEq] at hg
    obtain ⟨htarget, hdb⟩ := hg
    rw [hst.get, runMigrateTo_pass m db target (by omega) hcheck,
      migrateFrom_equal m db db1 target hget,
      hooks_keep m stored hst _ _ _ _ (isStep_beforeAll m) (isStep_afterAll m), htarget, hdb]

/-- C14, on the registry 1, 2, 3, 4 with the database at version 2: `MigrateTo(db, 2)` only
reads the version, and the store still reads 2. -/
theorem C14_equal_case_witness :
    (runMigrateTo (testMigrator [1, 2, 3, 4] true none none) ⟨2⟩ 2).returned = true ∧
    (runMigrateTo (testMigrator [1, 2, 3, 4] true none none) ⟨2⟩ 2).state.trace
      = [.getVersion] ++ hookEvents .beforeAll none ++ hookEvents .afterAll none ∧
    readVersion (runMigrateTo (testMigrator [1, 2, 3, 4] true none none) ⟨2⟩ 2).state.db =
      .ok 2 (runMigrateTo (testMigrator [1, 2, 3, 4] true none none) ⟨2⟩ 2).state.db :=
  ⟨by decide,
    (C14_equal_case (testMigrator [1, 2, 3, 4] true none none) ⟨2⟩ ⟨2⟩ 2 (fun _ => by decide)
      (by decide) rfl).2.1 (by decide),
    (C14_equal_case (testMigrator [1, 2, 3, 4] true none none) ⟨2⟩ ⟨2⟩ 2 (fun _ => by decide)
      (by decide) rfl).2.2.2.2 VersionDB.version
      (faithful_testMigrator _ _ _ _ (fun _ h => nomatch h) (fun _ h => nomatch h))⟩

/-- C19 as stated fails: with `CheckSequence` off and the registry 1, 5, 2 on a fresh database,
`MigrateTo(db, 3)` calls the `Up` of 1 and of 2, the latter registered after the descriptor 5
beyond the target, where the specified traversal stops after 1. -/
theorem C19_traversal_does_not_stop :
    (runMigrateTo (testMigrator [1, 5, 2] false none none) ⟨0⟩ 3).returned = true ∧
    versionsOf (ups (runMigrateTo (testMigrator [1, 5, 2] false none none) ⟨0⟩ 3).state.trace)
      = [1, 2] ∧
    versionsOf (specAscending 0 3 (testMigrator [1, 5, 2] false none none).migrations) = [1] := by
  decide

/-- C19, amended. Over a registry registered in ascending version order, when the configured
sequence check passes, the target is above the version read and every callable succeeds, the
descriptors whose `Up` `MigrateTo` calls are those of the specified traversal: skip while
`SchemaVersion ≤ current`, apply while `SchemaVersion ≤ target`, stop at the first descriptor
beyond the target. -/
theorem C19_ascending_refines_spec {DB : Type} (m : Migrator DB) (db db1 : DB)
    (current version : Int)
    (hcheck : m.CheckSequence = true → validateSequence m = none)
    (hasc : m.migrations.Pairwise (fun a b => a.SchemaVersion ≤ b.SchemaVersion))
    (hget : m.GetVersion db = .ok current db1) (hs : AllSucceed m)
    (h1 : 1 ≤ version) (hlt : current < version) :
    ∃ s, runMigrateTo m db version = .ok () s ∧
      ups s.trace = specAscending current version m.migrations := by
  obtain ⟨s, hrun, htr, -⟩ := runMigrateTo_ok m hs db db1 version current (by omega) hcheck hget
  refine ⟨s, hrun, ?_⟩
  rw [htr, ups_plan, if_pos hlt]
  exact upSteps_eq_specAscending current version m.migrations hasc

/-- C19 amended, with `CheckSequence` off on the ascending registry 1, 2, 5 and a fresh database:
`MigrateTo(db, 3)` applies 1 and 2 as the specified traversal does. -/
theorem C19_ascending_refines_spec_witness :
    ∃ s, runMigrateTo (testMigrator [1, 2, 5] false none none) ⟨0⟩ 3 = .ok () s ∧
      versionsOf (ups s.trace) = [1, 2] := by
  obtain ⟨s, hrun, hups⟩ :=
    C19_ascending_refines_spec (testMigrator [1, 2, 5] false none none) ⟨0⟩ ⟨0⟩ 0 3
      (fun h => nomatch h) (by simp [testMigrator, testMigration]) rfl
      (allSucceed_testMigrator _ _ _ _ (fun _ h => nomatch h) (fun _ h => nomatch h))
      (by decide) (by decide)
  exact ⟨s, hrun, by rw [hups]; decide⟩

/-- C15. Failure on ascent: let the registry be `l1`, then `d`, then `l2`, with `d` a descriptor
to apply (`current < d.SchemaVersion ≤ target`), so the K-th applied one for K one more than the
number of applied descriptors of `l1`.  When everything `MigrateTo` does before calling `d.Up`
returns, reaching the run state `s`, and `d.Up` panics there, then `MigrateTo` panics with the
same value and its trace ends with that `Up` call: no `SetVersion` for `d`, no `AfterEach`, no
further step, no `AfterAll`.  A faithful store then reads the version of the last applied
descriptor of `l1`, and the initial version when `l1` holds none. -/
theorem C15_failure_on_ascent {DB : Type} (m : Migrator DB) (db db1 db2 : DB)
    (current version : Int) (err : Error) (l1 l2 : List (Migration DB)) (d : Migration DB)
    (s : Run DB)
    (hcheck : m.CheckSequence = true → validateSequence m = none) (h1 : 1 ≤ version)
    (hreg : m.migrations = l1 ++ d :: l2)
    (hd1 : current < d.SchemaVersion) (hd2 : d.SchemaVersion ≤ version)
    (hget : m.GetVersion db = .ok current db1)
    (hbefore : (hook .beforeAll m.BeforeAll >>= fun _ =>
      migrateUp m current version l1 >>= fun _ =>
      hook .beforeEach m.BeforeEach) ⟨db1, [.getVersion]⟩ = .ok () s)
    (hfail : d.Up s.db = .panicked err db2) :
    runMigrateTo m db version = .panicked err ⟨db2, s.trace ++ [.up d]⟩ ∧
    s.trace = [.getVersion] ++ hookEvents .beforeAll m.BeforeAll ++
      (l1.filter (fun x =>
        decide (current < x.SchemaVersion) && decide (x.SchemaVersion ≤ version))).flatMap
        (fun x => hookEvents .beforeEach m.BeforeEach ++
          [.up x, .setVersion x.SchemaVersion] ++ hookEvents .afterEach m.AfterEach) ++
      hookEvents .beforeEach m.BeforeEach ∧
    ∀ stored, FaithfulStore m stored →
      (l1.filter (fun x =>
          decide (current < x.SchemaVersion) && decide (x.SchemaVersion ≤ version)) = [] →
        m.GetVersion db2 = .ok current db2) ∧
      ∀ pre e,
        l1.filter (fun x =>
          decide (current < x.SchemaVersion) && decide (x.SchemaVersion ≤ version))
            = pre ++ [e] →
        m.GetVersion db2 = .ok e.SchemaVersion db2 := by
  obtain ⟨hrun, htr, hstored⟩ := ascent_failure m db db1 db2 current version err l1 l2 d s
    hcheck h1 hreg hd1 hd2 hget hbefore hfail
  refine ⟨hrun, htr, fun stored hst => ?_⟩
  have hg := hst.get db
  rw [hget] at hg
  simp only [Result.ok.injEq] at hg
  have hv := hstored stored hst
  rw [hg.2, ← hg.1] at hv
  unfold upSteps at hv
  refine ⟨fun hnil => ?_, fun pre e hsplit => ?_⟩
  · rw [hst.get, hv, hnil]
    rfl
  · rw [hst.get, hv, hsplit, lastVersion_append_singleton]

/-- C15, on the registry 1, 2, 3, 4 whose descriptor 3 has a panicking `Up`, with a fresh
database: `MigrateTo(db, 4)` panics with that value right after calling that `Up`, and the store
reads 2. -/
theorem C15_failure_on_ascent_witness :
    runMigrateTo
        (testMigratorOf [testMigration 1, testMigration 2, failingMigration 3, testMigration 4]
          true) ⟨0⟩ 4 =
      .panicked "up failed" ⟨⟨2⟩,
        [.getVersion, .up (testMigration 1), .setVersion 1, .up (testMigration 2),
          .setVersion 2] ++ [.up (failingMigration 3)]⟩ ∧
    readVersion ⟨2⟩ = .ok 2 ⟨2⟩ := by
  obtain ⟨hrun, -, hstored⟩ :=
    C15_failure_on_ascent
      (testMigratorOf [testMigration 1, testMigration 2, failingMigration 3, testMigration 4]
        true) ⟨0⟩ ⟨0⟩ ⟨2⟩ 0 4 "up failed" [testMigration 1, testMigration 2] [testMigration 4]
      (failingMigration 3)
      ⟨⟨2⟩, [.getVersion, .up (testMigration 1), .setVersion 1, .up (testMigration 2),
        .setVersion 2]⟩
      (fun _ => by decide) (by decide) rfl (by decide) (by decide) rfl rfl rfl
  exact ⟨hrun, (hstored VersionDB.version (faithful_testMigratorOf_failing true)).2
    [testMigration 1] (testMigration 2) (by rfl)⟩

end Stork
